import Mathlib

/-!
Shallow embedding of the analytical core of the blockchain-system-analyser
repository (files `addressny.py` and `transactionny.py`).

Python dictionaries with possibly-missing keys are embedded as structures of
`Option` fields; an access `d['k']` that can raise `KeyError` is embedded in
the `Except Unit` monad (`.error ()` standing for the escaping exception),
while `d.get('k', v)` becomes `Option.getD`.  Python float arithmetic on
ratios and scores is embedded as exact rational arithmetic (`ℚ`), and
`round(x, 2)` as round-half-to-even at two decimal places on `ℚ`.
Python dicts that are only ever extended with fresh keys are embedded as
insertion-ordered association lists.
-/

/-- Values stored in the `details` dictionary of a privacy-score result:
numbers, booleans, or lists of strings (`script_types_used`). -/
inductive DVal where
  | num (q : ℚ)
  | bool (b : Bool)
  | strList (l : List String)
deriving DecidableEq, Repr

/-- One entry of a transaction's `inputs` list, as read by
`calculate_privacy_score` (addressny.py): the `sender` key is accessed
directly (raising on absence), `script_type` via `.get` with default. -/
structure InRec where
  sender : Option String
  script_type : Option String
deriving DecidableEq, Repr

/-- One entry of a transaction's `outputs` list: `recipient` and `value`
are accessed directly, `script_type` via `.get`. -/
structure OutRec where
  recipient : Option String
  value : Option Int
  script_type : Option String
deriving DecidableEq, Repr

/-- A transaction record as consumed by `calculate_privacy_score`; only the
keys the scorer reads are represented.  Every key can be absent: `inputs` /
`outputs` are guarded by `'inputs' in tx`, `timestamp` by truthiness, and
`input_count` / `output_count` / `size` are read with defaults 1, 1, 0. -/
structure Tx where
  inputs : Option (List InRec)
  outputs : Option (List OutRec)
  timestamp : Option Int
  input_count : Option Int
  output_count : Option Int
  size : Option Int
deriving DecidableEq, Repr

/-- The dictionary returned by `calculate_privacy_score`. -/
structure ScoreResult where
  score : ℚ
  factors : List (String × ℚ)
  recommendations : List String
  details : List (String × DVal)
deriving DecidableEq, Repr

/-- Accumulator of the address-reuse pass (factor 1): the `unique_addresses`
set, the `total_interactions` counter and the `address_usage` dict. -/
structure AddrStats where
  unique : List String
  total : Nat
  usage : List (String × Nat)
deriving DecidableEq, Repr

/-- Set insertion for a Python `set` modelled as a duplicate-free list. -/
def insertUniq (l : List String) (a : String) : List String :=
  if a ∈ l then l else l ++ [a]

/-- `d[a] = d.get(a, 0) + 1` on a counting dict held as an assoc list. -/
def bumpCount [DecidableEq α] : List (α × Nat) → α → List (α × Nat)
  | [], a => [(a, 1)]
  | (k, v) :: rest, a =>
      if k = a then (k, v + 1) :: rest else (k, v) :: bumpCount rest a

/-- `d.get(a)` on an assoc-list dict. -/
def lookupCount [DecidableEq α] (l : List (α × Nat)) (a : α) : Option Nat :=
  (l.find? (fun p => decide (p.1 = a))).map Prod.snd

/-- Record one non-sentinel address occurrence (the `addr != 'N/A (script)'`
branch of the factor-1 loops). -/
def noteAddr (st : AddrStats) (a : String) : AddrStats :=
  if a = "N/A (script)" then st
  else ⟨insertUniq st.unique a, st.total + 1, bumpCount st.usage a⟩

/-- `addr = inp['sender']` followed by the sentinel check: a missing
`sender` key raises `KeyError`. -/
def addrStatsInput (st : AddrStats) (inp : InRec) : Except Unit AddrStats :=
  match inp.sender with
  | none => .error ()
  | some a => .ok (noteAddr st a)

/-- `addr = out['recipient']` followed by the sentinel check. -/
def addrStatsOutput (st : AddrStats) (out : OutRec) : Except Unit AddrStats :=
  match out.recipient with
  | none => .error ()
  | some a => .ok (noteAddr st a)

/-- The factor-1 loop body for one transaction. -/
def addrStatsTx (st : AddrStats) (tx : Tx) : Except Unit AddrStats := do
  let st1 ← match tx.inputs with
    | none => pure st
    | some l => l.foldlM addrStatsInput st
  match tx.outputs with
  | none => pure st1
  | some l => l.foldlM addrStatsOutput st1

/-- The whole factor-1 pass over all transactions. -/
def addrStatsAll (transactions : List Tx) : Except Unit AddrStats :=
  transactions.foldlM addrStatsTx ⟨[], 0, []⟩

/-- The values of a list of output entries: a missing `value` raises. -/
def outValues : List OutRec → Except Unit (List Int)
  | [] => .ok []
  | o :: rest =>
      match o.value with
      | none => .error ()
      | some v => do
          let vs ← outValues rest
          .ok (v :: vs)

/-- `[out['value'] for out in tx['outputs']]`. -/
def txAmounts (tx : Tx) : Except Unit (List Int) :=
  match tx.outputs with
  | none => .ok []
  | some l => outValues l

/-- The factor-3 `amounts` collection over all transactions. -/
def allAmounts (transactions : List Tx) : Except Unit (List Int) :=
  transactions.foldlM (fun acc tx => do pure (acc ++ (← txAmounts tx))) []

/-- `[tx['timestamp'] for tx in transactions if tx.get('timestamp')]`:
Python truthiness drops both a missing and a zero timestamp. -/
def tx_timestamps (transactions : List Tx) : List Int :=
  transactions.filterMap (fun tx => match tx.timestamp with
    | some t => if t ≠ 0 then some t else none
    | none => none)

/-- Insert into a sorted list (ascending). -/
def insertSorted (x : Int) : List Int → List Int
  | [] => [x]
  | y :: ys => if x ≤ y then x :: y :: ys else y :: insertSorted x ys

/-- `timestamps.sort()`. -/
def sortInts (l : List Int) : List Int := l.foldr insertSorted []

/-- `[t[i+1] - t[i] for i in range(len(t)-1)]`. -/
def successiveDiffs : List Int → List Int
  | a :: b :: rest => (b - a) :: successiveDiffs (b :: rest)
  | _ => []

/-- The factor-2 computation on ≥ 2 collected timestamps: returns
(`avg_interval`, `regular_pattern`); `none` when fewer than two timestamps
were collected. -/
def timing_data (transactions : List Tx) : Option (ℚ × ℚ) :=
  if (tx_timestamps transactions).length > 1 then
    let intervals := successiveDiffs (sortInts (tx_timestamps transactions))
    let avg : ℚ := ((intervals.map (fun (i : Int) => (i : ℚ))).sum) / (intervals.length : ℚ)
    let regular : ℚ :=
      ((intervals.countP (fun (i : Int) => decide (|(i : ℚ) - avg| < 3600))) : ℚ) / (intervals.length : ℚ)
    some (avg, regular)
  else none

/-- Round-half-to-even to an integer, the rounding Python's `round` uses
(modelled on exact rationals). -/
def roundHalfEven (q : ℚ) : ℤ :=
  if q - ⌊q⌋ < 1/2 then ⌊q⌋
  else if q - ⌊q⌋ > 1/2 then ⌊q⌋ + 1
  else if 2 ∣ ⌊q⌋ then ⌊q⌋ else ⌊q⌋ + 1

/-- `round(x, 2)`. -/
def pyRound2 (q : ℚ) : ℚ := (roundHalfEven (q * 100) : ℚ) / 100

/-- The factor-5 script-type set. -/
def script_types_all (transactions : List Tx) : List String :=
  transactions.foldl (fun acc tx =>
    let acc1 := match tx.inputs with
      | none => acc
      | some l => l.foldl (fun a inp => insertUniq a (inp.script_type.getD "unknown")) acc
    match tx.outputs with
    | none => acc1
    | some l => l.foldl (fun a out => insertUniq a (out.script_type.getD "unknown")) acc1) []

/-- The fixed factor weights. -/
def weights : List (String × ℚ) :=
  [("address_diversity", 3/10), ("timing_randomness", 1/5), ("amount_diversity", 1/5),
   ("transaction_structure", 3/20), ("script_diversity", 1/10), ("size_consistency", 1/20)]

/-- `weights[name]` (all factor names are present, so the default is dead). -/
def weight_of (name : String) : ℚ :=
  ((weights.find? (fun w => decide (w.1 = name))).map Prod.snd).getD 0

/-- Factor 1's `reuse_ratio = len(unique_addresses) / max(total_interactions, 1)`. -/
def reuse_ratio_val (st : AddrStats) : ℚ :=
  (st.unique.length : ℚ) / ((max st.total 1 : ℕ) : ℚ)

/-- `factors['address_diversity'] = min(reuse_ratio * 100, 100)`. -/
def address_diversity_val (st : AddrStats) : ℚ := min (reuse_ratio_val st * 100) 100

/-- Factor 2 block: the factor value, its `details` entries, and its
recommendation (addressny.py lines 200-218). -/
def timing_block (transactions : List Tx) : ℚ × List (String × DVal) × List String :=
  match timing_data transactions with
  | some (avg, regular) =>
      (((1 - regular) * 100 : ℚ),
       [("avg_time_between_tx", DVal.num (avg / 3600)),
        ("regular_timing_pattern", DVal.bool (decide (regular > 7/10)))],
       if regular > 7/10 then ["Vary transaction timing to avoid predictable patterns"] else [])
  | none => ((50 : ℚ), [("avg_time_between_tx", DVal.num 0)], [])

/-- Factor 3 block (addressny.py lines 226-244). -/
def amount_block (amounts : List Int) : ℚ × List (String × DVal) × List String :=
  if amounts.isEmpty then
    ((50 : ℚ), [("round_amounts_ratio", DVal.num 0)], ([] : List String))
  else
    let round_amounts := amounts.countP (fun a => decide (a % 100000 = 0))
    let round_ratio : ℚ := (round_amounts : ℚ) / (amounts.length : ℚ)
    let amount_counts := amounts.foldl bumpCount []
    let repeated_amounts := amount_counts.countP (fun p => decide (p.2 > 1))
    ((max 0 (100 - round_ratio * 100) : ℚ),
     [("round_amounts_ratio", DVal.num round_ratio),
      ("repeated_amounts", DVal.num repeated_amounts)],
     if round_ratio > 3/10 then ["Avoid round number amounts to improve transaction privacy"] else [])

/-- Factor 4's `simple_tx_ratio`, computed from the `input_count` /
`output_count` fields (defaults 1), not from the entry lists. -/
def simple_tx_ratio_val (transactions : List Tx) : ℚ :=
  let pairs := (transactions.map (fun tx => tx.input_count.getD 1)).zip
    (transactions.map (fun tx => tx.output_count.getD 1))
  ((pairs.countP (fun p => decide (p.1 = 1 ∧ p.2 = 2))) : ℚ) / (transactions.length : ℚ)

/-- Factor 4's `complex_tx_ratio` (> 3 inputs or > 3 outputs, by the count fields). -/
def complex_tx_ratio_val (transactions : List Tx) : ℚ :=
  let pairs := (transactions.map (fun tx => tx.input_count.getD 1)).zip
    (transactions.map (fun tx => tx.output_count.getD 1))
  ((pairs.countP (fun p => decide (p.1 > 3 ∨ p.2 > 3))) : ℚ) / (transactions.length : ℚ)

/-- `factors['transaction_structure'] = min(simple_tx_ratio * 100 + 20, 100)`. -/
def transaction_structure_val (transactions : List Tx) : ℚ :=
  min (simple_tx_ratio_val transactions * 100 + 20) 100

/-- `factors['script_diversity'] = min(len(script_types) * 25, 100)`. -/
def script_diversity_val (transactions : List Tx) : ℚ :=
  min (((script_types_all transactions).length : ℚ) * 25) 100

/-- Factor 6's `sizes` list: positive `size` fields. -/
def tx_sizes (transactions : List Tx) : List Int :=
  transactions.filterMap (fun tx =>
    let s := tx.size.getD 0
    if s > 0 then some s else none)

/-- Factor 6 block, continued (addressny.py lines 274-283). -/
def size_block (transactions : List Tx) : ℚ × List (String × DVal) :=
  if (tx_sizes transactions).isEmpty then ((50 : ℚ), ([] : List (String × DVal)))
  else
    let sizes := tx_sizes transactions
    let avg_size : ℚ := ((sizes.map (fun (s : Int) => (s : ℚ))).sum) / (sizes.length : ℚ)
    let size_variance : ℚ :=
      ((sizes.map (fun (s : Int) => ((s : ℚ) - avg_size) ^ 2)).sum) / (sizes.length : ℚ)
    let size_consistency := max 0 (100 - size_variance / avg_size * 10)
    (min size_consistency 100, [("avg_tx_size", DVal.num avg_size)])

/-- The pure part of `calculate_privacy_score` after the two passes that can
raise (`addrStatsAll`, `allAmounts`) have succeeded on a non-empty list. -/
def score_core (transactions : List Tx) (target_address : String)
    (st : AddrStats) (amounts : List Int) : ScoreResult :=
  let target_reuse := (lookupCount st.usage target_address).getD 0
  let timing := timing_block transactions
  let amt := amount_block amounts
  let sized := size_block transactions
  let factors : List (String × ℚ) :=
    [("address_diversity", address_diversity_val st),
     ("timing_randomness", timing.1),
     ("amount_diversity", amt.1),
     ("transaction_structure", transaction_structure_val transactions),
     ("script_diversity", script_diversity_val transactions),
     ("size_consistency", sized.1)]
  let recommendations : List String :=
    (if reuse_ratio_val st < 1/2 then ["Consider using a new address for each transaction to improve privacy"] else []) ++
    (if target_reuse > 5 then ["Target address used " ++ toString target_reuse ++ " times - high reuse reduces privacy"] else []) ++
    timing.2.2 ++ amt.2.2 ++
    (if simple_tx_ratio_val transactions < 3/10 then ["Consider using simple transaction structures (1 input, 2 outputs) for better privacy"] else []) ++
    (if complex_tx_ratio_val transactions > 3/10 then ["High complexity transactions may stand out - consider simpler patterns"] else [])
  let details : List (String × DVal) :=
    [("address_reuse_count", DVal.num target_reuse),
     ("unique_addresses", DVal.num st.unique.length),
     ("total_interactions", DVal.num st.total)] ++
    timing.2.1 ++ amt.2.1 ++
    [("simple_tx_ratio", DVal.num (simple_tx_ratio_val transactions)),
     ("complex_tx_ratio", DVal.num (complex_tx_ratio_val transactions)),
     ("script_types_used", DVal.strList (script_types_all transactions))] ++
    sized.2
  let weighted_score := (factors.map (fun p => p.2 * weight_of p.1)).sum
  ⟨pyRound2 weighted_score, factors, recommendations, details⟩

/-- `calculate_privacy_score` (addressny.py, lines 156-302).  The two loops
that index possibly-missing keys run first (in source order); everything
else is pure. -/
def calculate_privacy_score (transactions : List Tx) (target_address : String) :
    Except Unit ScoreResult :=
  if transactions.isEmpty then .ok ⟨0, [], [], []⟩
  else do
    let st ← addrStatsAll transactions
    let amounts ← allAmounts transactions
    pure (score_core transactions target_address st amounts)

/-- `factors[name]` lookup on a result. -/
def factor_value (r : ScoreResult) (name : String) : Option ℚ :=
  (r.factors.find? (fun p => decide (p.1 = name))).map Prod.snd

/-- Well-formedness of the individual input/output entries: every input has
a `sender` key and every output has `recipient` and `value` keys — exactly
the keys `calculate_privacy_score` indexes directly. -/
def entriesWF (transactions : List Tx) : Prop :=
  ∀ tx ∈ transactions,
    (∀ i ∈ tx.inputs.getD [], i.sender.isSome = true) ∧
    (∀ o ∈ tx.outputs.getD [], o.recipient.isSome = true ∧ o.value.isSome = true)

instance : DecidablePred entriesWF := fun _ => by
  unfold entriesWF; infer_instance

/-- Spec-side formula for the timing factor, written after the spec's §4.1
description but with timestamps counted with multiplicity (the amendment):
successive intervals of the sorted timestamps, `regular_ratio` = fraction
within one hour of the mean, factor = 100 × (1 − regular_ratio), neutral 50
with fewer than two collected timestamps. -/
def timing_randomness_spec (transactions : List Tx) : ℚ :=
  if (tx_timestamps transactions).length < 2 then 50
  else
    let intervals := successiveDiffs (sortInts (tx_timestamps transactions))
    let avg : ℚ := ((intervals.map (fun (i : Int) => (i : ℚ))).sum) / (intervals.length : ℚ)
    let regular_ratio : ℚ :=
      ((intervals.countP (fun (i : Int) => decide (|(i : ℚ) - avg| < 3600))) : ℚ) / (intervals.length : ℚ)
    100 * (1 - regular_ratio)

/-! ## The address-link graph (transactionny.py)

`CryptocurrencyPrivacyAnalyzer` keeps `self.transaction_graph = nx.DiGraph()`
— a *simple* directed graph: `add_edge` on an existing (u, v) pair updates
the edge's attributes in place rather than adding a parallel edge, and
`add_node` on an existing node updates its attributes.  Nodes are kept as an
insertion-ordered list of (address, node_type attribute); edges as an
insertion-ordered association list keyed by the (from, to) pair. -/

/-- Edge attributes: `tx_hash` and `value`. -/
structure EdgeData where
  tx_hash : String
  value : Int
deriving DecidableEq, Repr

/-- The `nx.DiGraph` state. -/
structure Graph where
  nodes : List (String × Option String)
  edges : List ((String × String) × EdgeData)
deriving DecidableEq, Repr

/-- `address in graph`. -/
def nodeMem (g : Graph) (a : String) : Bool := g.nodes.any (fun p => decide (p.1 = a))

/-- `G.add_node(a, node_type=t)`: update the attribute in place, or append. -/
def add_node (g : Graph) (a : String) (t : String) : Graph :=
  if nodeMem g a then
    { g with nodes := g.nodes.map (fun p => if p.1 = a then (a, some t) else p) }
  else
    { g with nodes := g.nodes ++ [(a, some t)] }

/-- `add_edge` implicitly adds missing endpoints as attribute-less nodes. -/
def ensureNode (g : Graph) (a : String) : Graph :=
  if nodeMem g a then g else { g with nodes := g.nodes ++ [(a, none)] }

/-- Overwrite the attributes of an existing (u, v) edge in place, else append. -/
def updateEdge : List ((String × String) × EdgeData) → String × String → EdgeData →
    List ((String × String) × EdgeData)
  | [], k, d => [(k, d)]
  | (k', d') :: rest, k, d =>
      if k' = k then (k, d) :: rest else (k', d') :: updateEdge rest k d

/-- `G.add_edge(u, v, tx_hash=..., value=...)` on a `DiGraph`. -/
def add_edge (g : Graph) (u v : String) (d : EdgeData) : Graph :=
  let g1 := ensureNode (ensureNode g u) v
  { g1 with edges := updateEdge g1.edges (u, v) d }

/-- One entry of a normalized transaction's `inputs` as read by
`analyze_bitcoin_transaction` (only `recipient` is used). -/
structure TIn where
  recipient : Option String
deriving DecidableEq, Repr

/-- One entry of a normalized transaction's `outputs`
(`recipient`, and `value` read with default 0). -/
structure TOut where
  recipient : Option String
  value : Option Int
deriving DecidableEq, Repr

/-- The part of a normalized transaction record the graph builder reads. -/
structure TxData where
  inputs : List TIn
  outputs : List TOut
deriving DecidableEq, Repr

/-- The guard `if recipient and recipient != "nonstandard"`: Python
truthiness rejects a missing or empty address, and the explicit check
rejects the Blockchair sentinel `"nonstandard"`.  Returns the accepted
address. -/
def okRecip : Option String → Option String
  | some s => if s ≠ "" ∧ s ≠ "nonstandard" then some s else none
  | none => none

/-- The graph-building part of `analyze_bitcoin_transaction`
(transactionny.py lines 263-286): tag input/output nodes, then add one
directed edge per accepted (input, output) pair carrying the transaction
hash and the output's value. -/
def analyze_bitcoin_transaction (g : Graph) (tx_hash : String) (tx : TxData) : Graph :=
  let g1 := tx.inputs.foldl (fun g inp =>
    match okRecip inp.recipient with
    | some r => add_node g r "input"
    | none => g) g
  let g2 := tx.outputs.foldl (fun g out =>
    match okRecip out.recipient with
    | some r => add_node g r "output"
    | none => g) g1
  tx.inputs.foldl (fun g inp =>
    match okRecip inp.recipient with
    | some i => tx.outputs.foldl (fun g out =>
        match okRecip out.recipient with
        | some o => add_edge g i o ⟨tx_hash, out.value.getD 0⟩
        | none => g) g
    | none => g) g2

/-- `edges[(u, v)]` lookup. -/
def findEdge (es : List ((String × String) × EdgeData)) (k : String × String) :
    Option EdgeData :=
  (es.find? (fun e => decide (e.1 = k))).map Prod.snd

/-! ## Clustering (transactionny.py `cluster_addresses`) -/

/-- All endpoints of the graph's edges. -/
def edgeEndpoints (g : Graph) : Finset String :=
  g.edges.foldr (fun e s => insert e.1.1 (insert e.1.2 s)) ∅

/-- Undirected adjacency of the graph (`G.to_undirected()`). -/
def adjb (g : Graph) (x y : String) : Bool :=
  g.edges.any (fun e => decide ((e.1.1 = x ∧ e.1.2 = y) ∨ (e.1.1 = y ∧ e.1.2 = x)))

/-- Undirected neighbours of `x`. -/
def nbrs (g : Graph) (x : String) : Finset String :=
  (edgeEndpoints g).filter (fun y => adjb g x y = true)

/-- One saturation step of the connectivity closure. -/
def compStep (g : Graph) (s : Finset String) : Finset String :=
  s ∪ s.biUnion (nbrs g)

/-- `nx.node_connected_component(G.to_undirected(), a)`: the set of nodes
connected to `a` ignoring edge direction, computed by saturating from `{a}`
(enough iterations to reach the fixed point). -/
def node_connected_component (g : Graph) (a : String) : Finset String :=
  (compStep g)^[(edgeEndpoints g).card + 1] {a}

/-- Undirected reachability in the graph (the meaning of connectivity). -/
inductive Reach (g : Graph) : String → String → Prop
  | refl (a : String) : Reach g a a
  | tail {a b c : String} : Reach g a b → adjb g b c = true → Reach g a c

/-- `self.address_clusters`: the persistent address → cluster-id dict. -/
structure Registry where
  clusters : List (String × Nat)
deriving DecidableEq, Repr

/-- `list(nx.node_connected_component(...))`: the component as a list (the
Python `list(set)` order is unspecified; the sorted order is used here). -/
def componentList (g : Graph) (a : String) : List String :=
  (node_connected_component g a).sort (fun x y => x ≤ y)

/-- The body of `cluster_addresses`' loop for one candidate address.  The
accumulator carries the registry dict and the call-local `cluster_id`
counter (which restarts at 0 on every call). -/
def cluster_step (g : Graph) (acc : List (String × Nat) × Nat) (address : String) :
    List (String × Nat) × Nat :=
  if (lookupCount acc.1 address).isSome then acc
  else if nodeMem g address then
    if (componentList g address).any (fun c => (lookupCount acc.1 c).isSome) then acc
    else (acc.1 ++ (componentList g address).map (fun x => (x, acc.2)), acc.2 + 1)
  else (acc.1 ++ [(address, acc.2)], acc.2 + 1)

/-- `cluster_addresses(addresses)` (transactionny.py lines 298-332): assign
a fresh id (counting from 0 *in this call*) to every component none of
whose members is assigned yet; never overwrite existing assignments. -/
def cluster_addresses (g : Graph) (addresses : List String) (reg : Registry) : Registry :=
  ⟨(addresses.foldl (cluster_step g) (reg.clusters, 0)).1⟩

/-- A sequence of `cluster_addresses` calls, each against the graph state
current at that call. -/
def run_cluster_calls (calls : List (Graph × List String)) (reg : Registry) : Registry :=
  calls.foldl (fun r c => cluster_addresses c.1 c.2 r) reg

/-! ## The cluster-size computation (transactionny.py lines 447-454)

`analyze_privacy_score` iterates `self.address_clusters.items()` — pairs of
(address string, integer id) — as if it were id → members, comparing the
string key `cid` with the integer `address_cluster_id`.  Python's `==` on a
str and an int is `False`, so the body (which would call `len` on an `int`
and raise `TypeError`) never runs.  The dynamic comparison is embedded
faithfully over tagged Python values. -/

/-- A dynamically typed Python value (the two types that occur here). -/
inductive PyVal where
  | str (s : String)
  | int (n : Int)
deriving DecidableEq, Repr

/-- Python `==` across these values: cross-type comparison is `False`. -/
def pyEq : PyVal → PyVal → Bool
  | .str a, .str b => decide (a = b)
  | .int a, .int b => decide (a = b)
  | _, _ => false

/-- Python `len`: defined on a string, raises `TypeError` on an int. -/
def pyLen : PyVal → Except Unit Nat
  | .str s => .ok s.length
  | .int _ => .error ()

/-- The `for cid, cluster_members in self.address_clusters.items()` loop:
on a (string-key, int-value) pair whose key compares equal to the target id
the body would run `len(cluster_members)` and break. -/
def cluster_size_loop (items : List (String × Nat)) (target_id : Nat) : Except Unit Nat :=
  match items with
  | [] => .ok 0
  | (cid, cluster_members) :: rest =>
      if pyEq (.str cid) (.int target_id) then
        pyLen (.int cluster_members)
      else cluster_size_loop rest target_id

/-- The cluster-size computation of `analyze_privacy_score`:
`address_cluster_id = self.address_clusters.get(address)`, `cluster_size`
starts at 0, and the loop runs only when the id is not `None`. -/
def cluster_size_calc (address_clusters : List (String × Nat)) (address : String) :
    Except Unit Nat :=
  match lookupCount address_clusters address with
  | none => .ok 0
  | some target_id => cluster_size_loop address_clusters target_id

/-! ## Concrete sample inputs used by counterexamples and witnesses -/

/-- A minimal transaction record with every optional key absent. -/
def txEmptyKeys : Tx := ⟨none, none, none, none, none, none⟩

/-- A transaction whose single input entry lacks the `sender` key. -/
def txNoSender : Tx := ⟨some [⟨none, none⟩], none, none, none, none, none⟩

/-- One input entry (sender A) and two output entries (B and C with
distinct non-round values) — but no `input_count` / `output_count` keys. -/
def txOneInTwoOut : Tx :=
  ⟨some [⟨some "A", none⟩],
   some [⟨some "B", some 3, none⟩, ⟨some "C", some 7, none⟩],
   none, none, none, none⟩

/-- A record carrying `input_count = 1` and `output_count = 2`. -/
def txCounts12 : Tx := ⟨none, none, none, some 1, some 2, none⟩

/-- A confirmed transaction with timestamp 1000 and nothing else. -/
def txTs1000 : Tx := ⟨none, none, some 1000, none, none, none⟩

/-- The empty graph. -/
def graph0 : Graph := ⟨[], []⟩

/-- A transaction sending from address A to the Blockstream placeholder
`'N/A (script)'` (an output with no resolvable address). -/
def txDataNA : TxData := ⟨[⟨some "A"⟩], [⟨some "N/A (script)", some 2⟩]⟩

/-- A one-input one-output transaction A → B with value 5. -/
def txDataAB : TxData := ⟨[⟨some "A"⟩], [⟨some "B", some 5⟩]⟩


/-! ## Helper lemmas: ratios, rounding, factor bounds -/

theorem natRatio_nonneg (c L : ℕ) : 0 ≤ (c : ℚ) / (L : ℚ) := by positivity

theorem natRatio_le_one (c L : ℕ) (h : c ≤ L) : (c : ℚ) / (L : ℚ) ≤ 1 := by
  rcases Nat.eq_zero_or_pos L with h0 | h0
  · have : c = 0 := Nat.le_zero.mp (h0 ▸ h)
    simp [this, h0]
  · rw [div_le_one (by exact_mod_cast h0)]
    exact_mod_cast h

theorem address_diversity_val_bounds (st : AddrStats) :
    0 ≤ address_diversity_val st ∧ address_diversity_val st ≤ 100 := by
  unfold address_diversity_val reuse_ratio_val
  constructor
  · exact le_min (by positivity) (by norm_num)
  · exact min_le_right _ _

theorem timing_data_regular_bounds (txs : List Tx) (avg regular : ℚ)
    (h : timing_data txs = some (avg, regular)) : 0 ≤ regular ∧ regular ≤ 1 := by
  unfold timing_data at h
  split at h
  · simp only [Option.some.injEq, Prod.mk.injEq] at h
    obtain ⟨-, hr⟩ := h
    subst hr
    exact ⟨natRatio_nonneg _ _, natRatio_le_one _ _ (List.countP_le_length _)⟩
  · exact absurd h (by simp)

theorem timing_block_bounds (txs : List Tx) :
    0 ≤ (timing_block txs).1 ∧ (timing_block txs).1 ≤ 100 := by
  unfold timing_block
  rcases hd : timing_data txs with - | ⟨avg, regular⟩
  · norm_num
  · obtain ⟨h0, h1⟩ := timing_data_regular_bounds txs avg regular hd
    constructor
    · simp only
      nlinarith
    · simp only
      nlinarith

theorem amount_block_bounds (amounts : List Int) :
    0 ≤ (amount_block amounts).1 ∧ (amount_block amounts).1 ≤ 100 := by
  unfold amount_block
  split
  · norm_num
  · constructor
    · simp only
      exact le_max_left _ _
    · simp only
      refine max_le (by norm_num) ?_
      have := natRatio_nonneg (amounts.countP (fun a => decide (a % 100000 = 0))) amounts.length
      nlinarith

theorem simple_tx_ratio_val_nonneg (txs : List Tx) : 0 ≤ simple_tx_ratio_val txs := by
  unfold simple_tx_ratio_val
  exact natRatio_nonneg _ _

theorem transaction_structure_val_bounds (txs : List Tx) :
    0 ≤ transaction_structure_val txs ∧ transaction_structure_val txs ≤ 100 := by
  unfold transaction_structure_val
  have := simple_tx_ratio_val_nonneg txs
  exact ⟨le_min (by nlinarith) (by norm_num), min_le_right _ _⟩

theorem script_diversity_val_bounds (txs : List Tx) :
    0 ≤ script_diversity_val txs ∧ script_diversity_val txs ≤ 100 := by
  unfold script_diversity_val
  exact ⟨le_min (by positivity) (by norm_num), min_le_right _ _⟩

theorem size_block_bounds (txs : List Tx) :
    0 ≤ (size_block txs).1 ∧ (size_block txs).1 ≤ 100 := by
  unfold size_block
  split
  · norm_num
  · constructor
    · simp only
      exact le_min (le_max_left _ _) (by norm_num)
    · simp only
      exact min_le_right _ _

theorem roundHalfEven_nonneg (q : ℚ) (h : 0 ≤ q) : 0 ≤ roundHalfEven q := by
  unfold roundHalfEven
  have hf : (0 : ℤ) ≤ ⌊q⌋ := Int.floor_nonneg.mpr h
  split_ifs <;> omega

theorem roundHalfEven_le (q : ℚ) (m : ℤ) (h : q ≤ (m : ℚ)) : roundHalfEven q ≤ m := by
  unfold roundHalfEven
  have hfm : ⌊q⌋ ≤ m := by
    have h2 := Int.floor_le_floor (α := ℚ) h
    simpa using h2
  have hup : q - (⌊q⌋ : ℚ) ≥ 1/2 → ⌊q⌋ + 1 ≤ m := by
    intro hge
    have hlt : (⌊q⌋ : ℚ) < q := by nlinarith
    have : (⌊q⌋ : ℚ) < (m : ℚ) := hlt.trans_le h
    have : ⌊q⌋ < m := by exact_mod_cast this
    omega
  split_ifs with h1 h2 h3
  · exact hfm
  · exact hup (by linarith)
  · exact hfm
  · exact hup (by linarith)

theorem pyRound2_nonneg (q : ℚ) (h : 0 ≤ q) : 0 ≤ pyRound2 q := by
  unfold pyRound2
  have h1 := roundHalfEven_nonneg (q * 100) (by nlinarith)
  have h0 : (0 : ℚ) ≤ (roundHalfEven (q * 100) : ℚ) := by exact_mod_cast h1
  positivity

theorem pyRound2_le_100 (q : ℚ) (h : q ≤ 100) : pyRound2 q ≤ 100 := by
  unfold pyRound2
  have h1 := roundHalfEven_le (q * 100) 10000 (by push_cast; nlinarith)
  have h0 : (roundHalfEven (q * 100) : ℚ) ≤ 10000 := by exact_mod_cast h1
  rw [div_le_iff₀ (by norm_num)]
  linarith

/-! ## Totality of the scorer on records whose entries are well-formed -/

theorem foldlM_addrStatsInput_ok :
    ∀ (l : List InRec) (st : AddrStats), (∀ i ∈ l, i.sender.isSome = true) →
      ∃ st', l.foldlM addrStatsInput st = .ok st'
  | [], st, _ => ⟨st, rfl⟩
  | a :: l, st, h => by
    rcases hs : a.sender with - | sVal
    · have ha := h a (by simp)
      rw [hs] at ha
      simp at ha
    · obtain ⟨st', hst⟩ :=
        foldlM_addrStatsInput_ok l (noteAddr st sVal) (fun i hi => h i (by simp [hi]))
      refine ⟨st', ?_⟩
      simp [List.foldlM_cons, addrStatsInput, hs, hst, bind, Except.bind]

theorem foldlM_addrStatsOutput_ok :
    ∀ (l : List OutRec) (st : AddrStats), (∀ o ∈ l, o.recipient.isSome = true) →
      ∃ st', l.foldlM addrStatsOutput st = .ok st'
  | [], st, _ => ⟨st, rfl⟩
  | a :: l, st, h => by
    rcases hs : a.recipient with - | sVal
    · have ha := h a (by simp)
      rw [hs] at ha
      simp at ha
    · obtain ⟨st', hst⟩ :=
        foldlM_addrStatsOutput_ok l (noteAddr st sVal) (fun o ho => h o (by simp [ho]))
      refine ⟨st', ?_⟩
      simp [List.foldlM_cons, addrStatsOutput, hs, hst, bind, Except.bind]

theorem addrStatsTx_ok (st : AddrStats) (tx : Tx)
    (hin : ∀ i ∈ tx.inputs.getD [], i.sender.isSome = true)
    (hout : ∀ o ∈ tx.outputs.getD [], o.recipient.isSome = true) :
    ∃ st', addrStatsTx st tx = .ok st' := by
  unfold addrStatsTx
  rcases hi : tx.inputs with - | li <;> rcases ho : tx.outputs with - | lo
  · exact ⟨st, rfl⟩
  · rw [ho] at hout
    simp only [Option.getD_some] at hout
    obtain ⟨st', hst⟩ := foldlM_addrStatsOutput_ok lo st hout
    exact ⟨st', by simp [hst, bind, Except.bind, pure, Except.pure]⟩
  · rw [hi] at hin
    simp only [Option.getD_some] at hin
    obtain ⟨st1, hst1⟩ := foldlM_addrStatsInput_ok li st hin
    exact ⟨st1, by simp [hst1, bind, Except.bind, pure, Except.pure]⟩
  · rw [hi] at hin
    rw [ho] at hout
    simp only [Option.getD_some] at hin hout
    obtain ⟨st1, hst1⟩ := foldlM_addrStatsInput_ok li st hin
    obtain ⟨st', hst⟩ := foldlM_addrStatsOutput_ok lo st1 hout
    exact ⟨st', by simp [hst1, hst, bind, Except.bind, pure, Except.pure]⟩

theorem foldlM_addrStatsTx_ok :
    ∀ (txs : List Tx) (st : AddrStats),
      (∀ tx ∈ txs, (∀ i ∈ tx.inputs.getD [], i.sender.isSome = true) ∧
        (∀ o ∈ tx.outputs.getD [], o.recipient.isSome = true)) →
      ∃ st', txs.foldlM addrStatsTx st = .ok st'
  | [], st, _ => ⟨st, rfl⟩
  | tx :: txs, st, h => by
    obtain ⟨st1, hst1⟩ := addrStatsTx_ok st tx (h tx (by simp)).1 (h tx (by simp)).2
    obtain ⟨st', hst⟩ := foldlM_addrStatsTx_ok txs st1 (fun t ht => h t (by simp [ht]))
    exact ⟨st', by simp [List.foldlM_cons, hst1, hst, bind, Except.bind]⟩

theorem addrStatsAll_ok (txs : List Tx) (hwf : entriesWF txs) :
    ∃ st, addrStatsAll txs = .ok st :=
  foldlM_addrStatsTx_ok txs ⟨[], 0, []⟩
    (fun tx ht => ⟨(hwf tx ht).1, fun o ho => ((hwf tx ht).2 o ho).1⟩)

theorem outValues_ok :
    ∀ (l : List OutRec), (∀ o ∈ l, o.value.isSome = true) →
      ∃ vs, outValues l = .ok (vs : List Int)
  | [], _ => ⟨[], rfl⟩
  | o :: l, h => by
    rcases hv : o.value with - | v
    · have ho := h o (by simp)
      rw [hv] at ho
      simp at ho
    · obtain ⟨vs, hvs⟩ := outValues_ok l (fun o' ho' => h o' (by simp [ho']))
      exact ⟨v :: vs, by simp [outValues, hv, hvs, bind, Except.bind]⟩

theorem txAmounts_ok (tx : Tx) (h : ∀ o ∈ tx.outputs.getD [], o.value.isSome = true) :
    ∃ am, txAmounts tx = .ok am := by
  unfold txAmounts
  rcases ho : tx.outputs with - | lo
  · exact ⟨[], rfl⟩
  · rw [ho] at h
    simp only [Option.getD_some] at h
    obtain ⟨vs, hvs⟩ := outValues_ok lo h
    exact ⟨vs, hvs⟩

theorem foldlM_amounts_ok :
    ∀ (txs : List Tx) (acc : List Int),
      (∀ tx ∈ txs, ∀ o ∈ tx.outputs.getD [], o.value.isSome = true) →
      ∃ am, txs.foldlM (fun acc tx => do pure (acc ++ (← txAmounts tx))) acc = .ok (am : List Int)
  | [], acc, _ => ⟨acc, rfl⟩
  | tx :: txs, acc, h => by
    obtain ⟨am1, ham1⟩ := txAmounts_ok tx (h tx (by simp))
    obtain ⟨am, ham⟩ := foldlM_amounts_ok txs (acc ++ am1) (fun t ht => h t (by simp [ht]))
    refine ⟨am, ?_⟩
    rw [List.foldlM_cons]
    simp only [ham1, bind, Except.bind, pure, Except.pure]
    exact ham

theorem allAmounts_ok (txs : List Tx) (hwf : entriesWF txs) :
    ∃ am, allAmounts txs = .ok am :=
  foldlM_amounts_ok txs [] (fun tx ht o ho => ((hwf tx ht).2 o ho).2)

theorem calculate_eq_core (txs : List Tx) (t : String) (hne : txs ≠ [])
    (hwf : entriesWF txs) :
    ∃ st amounts, calculate_privacy_score txs t = .ok (score_core txs t st amounts) := by
  obtain ⟨st, hst⟩ := addrStatsAll_ok txs hwf
  obtain ⟨am, ham⟩ := allAmounts_ok txs hwf
  refine ⟨st, am, ?_⟩
  unfold calculate_privacy_score
  rcases txs with - | ⟨tx, rest⟩
  · exact absurd rfl hne
  · simp only [List.isEmpty_cons, Bool.false_eq_true, if_false]
    simp [hst, ham, bind, Except.bind, pure, Except.pure]

/-! ## Claim theorems: the scoring engine -/

/-- C2: for the empty transaction list and any target address,
`calculate_privacy_score` returns exactly
`{score: 0, factors: {}, recommendations: [], details: {}}`. -/
theorem privacy_score_empty_exact (target : String) :
    calculate_privacy_score [] target = .ok ⟨0, [], [], []⟩ := rfl

/-- C3 counterexample: a transaction whose single input entry lacks the
`sender` key makes `calculate_privacy_score` raise (`KeyError` at
`inp['sender']`, addressny.py line 173) instead of skipping the entry, so
an exception does escape the scoring function. -/
theorem privacy_score_raises_on_missing_sender :
    calculate_privacy_score [txNoSender] "x" = .error () := rfl

/-- C3 amended: when every input entry has its `sender` key and every
output entry has its `recipient` and `value` keys, `calculate_privacy_score`
returns a result and no exception escapes (missing transaction-level keys —
`inputs`, `outputs`, `timestamp`, `input_count`, `output_count`, `size` —
and missing `script_type` are tolerated); entries missing `sender`,
`recipient` or `value` make the scorer raise instead of being skipped (they
are skipped only in the fetch-layer normalization, not here). -/
theorem privacy_score_total_on_wellformed (txs : List Tx) (t : String)
    (hwf : entriesWF txs) :
    ∃ r, calculate_privacy_score txs t = .ok r := by
  rcases hne : txs with - | ⟨tx, rest⟩
  · exact ⟨⟨0, [], [], []⟩, rfl⟩
  · obtain ⟨st, am, h⟩ := calculate_eq_core (tx :: rest) t (by simp) (hne ▸ hwf)
    exact ⟨_, h⟩

/-- C3 amended, witness at a concrete well-formed input. -/
theorem privacy_score_total_on_wellformed_witness :
    entriesWF [txOneInTwoOut] ∧ ∃ r, calculate_privacy_score [txOneInTwoOut] "a" = .ok r :=
  ⟨by decide, privacy_score_total_on_wellformed [txOneInTwoOut] "a" (by decide)⟩

/-- C10: the cluster-size computation of `analyze_privacy_score` always
reports 0 (and never reaches its `len(int)` body): it iterates the
address → id dict as if it were id → members, comparing a string key with
an integer id, so the match never fires — for every registry state and
every address, including addresses holding an assigned cluster id. -/
theorem cluster_size_always_zero (address_clusters : List (String × Nat)) (address : String) :
    cluster_size_calc address_clusters address = .ok 0 := by
  unfold cluster_size_calc
  rcases lookupCount address_clusters address with - | target
  · rfl
  · induction address_clusters with
    | nil => rfl
    | cons p rest ih =>
      obtain ⟨k, v⟩ := p
      simpa [cluster_size_loop, pyEq] using ih

theorem weight_of_values :
    weight_of "address_diversity" = 3/10 ∧ weight_of "timing_randomness" = 1/5 ∧
    weight_of "amount_diversity" = 1/5 ∧ weight_of "transaction_structure" = 3/20 ∧
    weight_of "script_diversity" = 1/10 ∧ weight_of "size_consistency" = 1/20 :=
  ⟨rfl, rfl, rfl, rfl, rfl, rfl⟩

theorem weighted_sum_eval (f1 f2 f3 f4 f5 f6 : ℚ) :
    ([("address_diversity", f1), ("timing_randomness", f2), ("amount_diversity", f3),
      ("transaction_structure", f4), ("script_diversity", f5),
      ("size_consistency", f6)].map (fun p => p.2 * weight_of p.1)).sum =
      f1 * (3/10) + f2 * (1/5) + f3 * (1/5) + f4 * (3/20) + f5 * (1/10) + f6 * (1/20) := by
  obtain ⟨w1, w2, w3, w4, w5, w6⟩ := weight_of_values
  simp [w1, w2, w3, w4, w5, w6]
  ring

/-- C1: for every non-empty (well-formed) transaction list,
`calculate_privacy_score` returns all six factors, each bounded to
[0, 100]; the overall score equals the weighted sum of the factors with the
fixed weights (address_diversity .30, timing_randomness .20,
amount_diversity .20, transaction_structure .15, script_diversity .10,
size_consistency .05) rounded to two decimal places, and lies in [0, 100]. -/
theorem privacy_score_bounds (txs : List Tx) (t : String) (hne : txs ≠ [])
    (hwf : entriesWF txs) :
    ∃ r, calculate_privacy_score txs t = .ok r ∧
      r.factors.map Prod.fst = ["address_diversity", "timing_randomness", "amount_diversity",
        "transaction_structure", "script_diversity", "size_consistency"] ∧
      (∀ p ∈ r.factors, 0 ≤ p.2 ∧ p.2 ≤ 100) ∧
      r.score = pyRound2 ((r.factors.map (fun p => p.2 * weight_of p.1)).sum) ∧
      0 ≤ r.score ∧ r.score ≤ 100 := by
  obtain ⟨st, am, hok⟩ := calculate_eq_core txs t hne hwf
  have hfs : (score_core txs t st am).factors =
      [("address_diversity", address_diversity_val st),
       ("timing_randomness", (timing_block txs).1),
       ("amount_diversity", (amount_block am).1),
       ("transaction_structure", transaction_structure_val txs),
       ("script_diversity", script_diversity_val txs),
       ("size_consistency", (size_block txs).1)] := rfl
  have hb1 := address_diversity_val_bounds st
  have hb2 := timing_block_bounds txs
  have hb3 := amount_block_bounds am
  have hb4 := transaction_structure_val_bounds txs
  have hb5 := script_diversity_val_bounds txs
  have hb6 := size_block_bounds txs
  refine ⟨_, hok, by rw [hfs]; rfl, ?_, rfl, ?_, ?_⟩
  · intro p hp
    rw [hfs] at hp
    simp only [List.mem_cons, List.not_mem_nil, or_false] at hp
    rcases hp with h | h | h | h | h | h <;> subst h
    exacts [hb1, hb2, hb3, hb4, hb5, hb6]
  · have hsc : (score_core txs t st am).score =
        pyRound2 (((score_core txs t st am).factors.map (fun p => p.2 * weight_of p.1)).sum) := rfl
    rw [hsc, hfs, weighted_sum_eval]
    exact pyRound2_nonneg _ (by linarith [hb1.1, hb2.1, hb3.1, hb4.1, hb5.1, hb6.1])
  · have hsc : (score_core txs t st am).score =
        pyRound2 (((score_core txs t st am).factors.map (fun p => p.2 * weight_of p.1)).sum) := rfl
    rw [hsc, hfs, weighted_sum_eval]
    exact pyRound2_le_100 _ (by linarith [hb1.2, hb2.2, hb3.2, hb4.2, hb5.2, hb6.2])

/-- C1, witness at a concrete non-empty input. -/
theorem privacy_score_bounds_witness :
    ([txOneInTwoOut] ≠ []) ∧ entriesWF [txOneInTwoOut] ∧
    (∃ r, calculate_privacy_score [txOneInTwoOut] "A" = .ok r ∧
      r.factors.map Prod.fst = ["address_diversity", "timing_randomness", "amount_diversity",
        "transaction_structure", "script_diversity", "size_consistency"] ∧
      (∀ p ∈ r.factors, 0 ≤ p.2 ∧ p.2 ≤ 100) ∧
      r.score = pyRound2 ((r.factors.map (fun p => p.2 * weight_of p.1)).sum) ∧
      0 ≤ r.score ∧ r.score ≤ 100) :=
  ⟨by decide, by decide, privacy_score_bounds [txOneInTwoOut] "A" (by decide) (by decide)⟩

theorem factor_value_structure (txs : List Tx) (t : String) (st : AddrStats) (am : List Int) :
    factor_value (score_core txs t st am) "transaction_structure" =
      some (transaction_structure_val txs) := rfl

theorem factor_value_timing (txs : List Tx) (t : String) (st : AddrStats) (am : List Int) :
    factor_value (score_core txs t st am) "timing_randomness" =
      some ((timing_block txs).1) := rfl

theorem countP_zip_map {α β γ : Type} (l : List α) (f : α → β) (g : α → γ) (p : β × γ → Bool) :
    ((l.map f).zip (l.map g)).countP p = l.countP (fun x => p (f x, g x)) := by
  induction l with
  | nil => rfl
  | cons a l ih => simp [List.countP_cons, ih]

theorem simple_tx_ratio_val_eq (txs : List Tx) :
    simple_tx_ratio_val txs =
      ((txs.countP (fun tx =>
        decide (tx.input_count.getD 1 = 1 ∧ tx.output_count.getD 1 = 2))) : ℚ) /
        (txs.length : ℚ) := by
  unfold simple_tx_ratio_val
  simp only [countP_zip_map]

/-- C4 counterexample: a single transaction whose `inputs` list has exactly
one entry and whose `outputs` list has exactly two entries, but which (like
every record produced by the detailed-transaction normalizer) carries no
`input_count` / `output_count` keys, gets `transaction_structure` = 20, not
100: the factor reads the count fields (defaulting both to 1), not the
entry lists. -/
theorem transaction_structure_counterexample :
    (calculate_privacy_score [txOneInTwoOut] "A").map
      (fun r => factor_value r "transaction_structure") = .ok (some 20) ∧
    (20 : ℚ) ≠ 100 := by
  refine ⟨?_, by norm_num⟩
  obtain ⟨st, am, hok⟩ := calculate_eq_core [txOneInTwoOut] "A" (by decide) (by decide)
  rw [hok]
  simp only [Except.map, factor_value_structure, Except.ok.injEq, Option.some.injEq]
  norm_num +decide [transaction_structure_val, simple_tx_ratio_val, txOneInTwoOut,
    List.countP, List.countP.go, min_def]

/-- C4 amended: `transaction_structure = min(100, 100 × simple_tx_ratio + 20)`,
where a transaction counts as "simple" exactly when its `input_count` field
equals 1 and its `output_count` field equals 2 (each defaulting to 1 when
the key is absent) — not when its input/output entry lists have lengths 1
and 2.  A single-transaction input carrying `input_count = 1` and
`output_count = 2` yields factor 100. -/
theorem transaction_structure_formula (txs : List Tx) (t : String) (hne : txs ≠ [])
    (hwf : entriesWF txs) :
    ∃ r, calculate_privacy_score txs t = .ok r ∧
      factor_value r "transaction_structure" =
        some (min (((txs.countP (fun tx =>
          decide (tx.input_count.getD 1 = 1 ∧ tx.output_count.getD 1 = 2))) : ℚ) /
          (txs.length : ℚ) * 100 + 20) 100) := by
  obtain ⟨st, am, hok⟩ := calculate_eq_core txs t hne hwf
  refine ⟨_, hok, ?_⟩
  rw [factor_value_structure]
  unfold transaction_structure_val
  rw [simple_tx_ratio_val_eq]

/-- C4 amended, witness: with the count fields present (1 input, 2 outputs
as counted by the code), the factor is 100. -/
theorem transaction_structure_formula_witness :
    ∃ r, calculate_privacy_score [txCounts12] "a" = .ok r ∧
      factor_value r "transaction_structure" = some 100 := by
  obtain ⟨r, hr, hf⟩ := transaction_structure_formula [txCounts12] "a" (by decide) (by decide)
  refine ⟨r, hr, ?_⟩
  rw [hf]
  norm_num +decide [List.countP, List.countP.go, txCounts12, min_def]

theorem timing_block_eq_spec (txs : List Tx) :
    (timing_block txs).1 = timing_randomness_spec txs := by
  unfold timing_block timing_randomness_spec timing_data
  by_cases h : (tx_timestamps txs).length > 1
  · rw [if_pos h, if_neg (by omega)]
    simp only
    ring
  · rw [if_neg h, if_pos (by omega)]

/-- C5 counterexample: two transactions sharing one timestamp have only one
*distinct* timestamp, yet `timing_randomness` is 0 (the single zero-length
interval is within an hour of the zero mean), not the neutral 50: the code
requires two collected timestamps counted with multiplicity, not two
distinct ones. -/
theorem timing_randomness_counterexample :
    (tx_timestamps [txTs1000, txTs1000]).dedup.length = 1 ∧
    (calculate_privacy_score [txTs1000, txTs1000] "x").map
      (fun r => factor_value r "timing_randomness") = .ok (some 0) ∧
    (0 : ℚ) ≠ 50 := by
  refine ⟨by decide, ?_, by norm_num⟩
  obtain ⟨st, am, hok⟩ := calculate_eq_core [txTs1000, txTs1000] "x" (by decide) (by decide)
  rw [hok]
  simp only [Except.map, factor_value_timing, Except.ok.injEq, Option.some.injEq]
  norm_num +decide [timing_block, timing_data, tx_timestamps, txTs1000, sortInts,
    insertSorted, successiveDiffs, List.countP, List.countP.go]

/-- C5 amended: `timing_randomness` is the neutral 50 whenever fewer than 2
of the transactions carry a (nonzero) timestamp; with ≥ 2 collected
timestamps — counted with multiplicity, not distinctness — it equals
100 × (1 − regular_ratio), where regular_ratio is the fraction of
successive intervals between the sorted timestamps lying within one hour
(3600 units) of the mean interval. -/
theorem timing_randomness_formula (txs : List Tx) (t : String) (hne : txs ≠ [])
    (hwf : entriesWF txs) :
    ∃ r, calculate_privacy_score txs t = .ok r ∧
      factor_value r "timing_randomness" = some (timing_randomness_spec txs) := by
  obtain ⟨st, am, hok⟩ := calculate_eq_core txs t hne hwf
  exact ⟨_, hok, by rw [factor_value_timing, timing_block_eq_spec]⟩

/-- C5 amended, witness at a concrete input with a single timestamp. -/
theorem timing_randomness_formula_witness :
    ∃ r, calculate_privacy_score [txTs1000] "x" = .ok r ∧
      factor_value r "timing_randomness" = some (timing_randomness_spec [txTs1000]) :=
  timing_randomness_formula [txTs1000] "x" (by decide) (by decide)

/-! ## Graph lemmas -/

theorem foldl_preserve {α : Type} (P : Graph → Prop) (f : Graph → α → Graph)
    (l : List α) (hstep : ∀ g a, a ∈ l → P g → P (f g a)) :
    ∀ g, P g → P (l.foldl f g) := by
  induction l with
  | nil => exact fun g hg => hg
  | cons a l ih =>
    intro g hg
    exact ih (fun g' b hb => hstep g' b (by simp [hb])) (f g a) (hstep g a (by simp) hg)

theorem okRecip_ne_nonstandard : ∀ {r : Option String} {a : String},
    okRecip r = some a → a ≠ "nonstandard"
  | some s, a, h => by
    simp only [okRecip] at h
    split_ifs at h with hc
    injection h with h'
    subst h'
    exact hc.2
  | none, a, h => by simp [okRecip] at h

theorem add_node_edges (g : Graph) (a t : String) : (add_node g a t).edges = g.edges := by
  unfold add_node
  split <;> rfl

theorem ensureNode_edges (g : Graph) (a : String) : (ensureNode g a).edges = g.edges := by
  unfold ensureNode
  split <;> rfl

theorem add_edge_edges (g : Graph) (u v : String) (d : EdgeData) :
    (add_edge g u v d).edges = updateEdge g.edges (u, v) d := by
  unfold add_edge
  simp only [ensureNode_edges]

theorem nodeMem_iff (g : Graph) (x : String) :
    nodeMem g x = true ↔ x ∈ g.nodes.map Prod.fst := by
  simp [nodeMem, List.any_eq_true, List.mem_map]

theorem add_node_keys (g : Graph) (a t : String) (ha : nodeMem g a = true) :
    (add_node g a t).nodes.map Prod.fst = g.nodes.map Prod.fst := by
  unfold add_node
  rw [if_pos ha]
  simp only [List.map_map]
  apply List.map_congr_left
  intro p hp
  simp only [Function.comp_apply]
  by_cases hcase : p.1 = a
  · rw [if_pos hcase]
    exact hcase.symm
  · rw [if_neg hcase]

theorem nodeMem_add_node (g : Graph) (a t x : String) :
    nodeMem (add_node g a t) x = true ↔ (nodeMem g x = true ∨ x = a) := by
  by_cases ha : nodeMem g a = true
  · rw [nodeMem_iff, add_node_keys g a t ha, ← nodeMem_iff]
    constructor
    · exact Or.inl
    · rintro (h | rfl)
      · exact h
      · exact ha
  · unfold add_node
    rw [if_neg ha, nodeMem_iff]
    simp only [List.map_append, List.map_cons, List.map_nil, List.mem_append,
      List.mem_singleton, ← nodeMem_iff]

theorem nodeMem_ensureNode (g : Graph) (a x : String) :
    nodeMem (ensureNode g a) x = true ↔ (nodeMem g x = true ∨ x = a) := by
  unfold ensureNode
  by_cases ha : nodeMem g a = true
  · rw [if_pos ha]
    constructor
    · exact Or.inl
    · rintro (h | rfl)
      · exact h
      · exact ha
  · rw [if_neg ha, nodeMem_iff]
    simp only [List.map_append, List.map_cons, List.map_nil, List.mem_append,
      List.mem_singleton, ← nodeMem_iff]

theorem mem_updateEdge {es : List ((String × String) × EdgeData)}
    {k : String × String} {d : EdgeData} {e : (String × String) × EdgeData}
    (h : e ∈ updateEdge es k d) : e ∈ es ∨ e = (k, d) := by
  induction es with
  | nil =>
    simp [updateEdge] at h
    exact Or.inr h
  | cons p rest ih =>
    obtain ⟨k', d'⟩ := p
    by_cases hk : k' = k
    · rw [updateEdge, if_pos hk] at h
      rcases List.mem_cons.mp h with h1 | h1
      · exact Or.inr h1
      · exact Or.inl (List.mem_cons_of_mem _ h1)
    · rw [updateEdge, if_neg hk] at h
      rcases List.mem_cons.mp h with h1 | h1
      · exact Or.inl (h1 ▸ List.mem_cons_self _ _)
      · rcases ih h1 with h2 | h2
        · exact Or.inl (List.mem_cons_of_mem _ h2)
        · exact Or.inr h2

/-- The Blockchair sentinel `"nonstandard"` appears nowhere in the graph:
not as a node and not as an endpoint of any edge. -/
def NoNonstandard (g : Graph) : Prop :=
  nodeMem g "nonstandard" = false ∧
  ∀ e ∈ g.edges, e.1.1 ≠ "nonstandard" ∧ e.1.2 ≠ "nonstandard"

instance : DecidablePred NoNonstandard := fun g => by
  unfold NoNonstandard
  infer_instance

theorem noNonstandard_add_node {g : Graph} {a t : String} (hg : NoNonstandard g)
    (ha : a ≠ "nonstandard") : NoNonstandard (add_node g a t) := by
  constructor
  · rw [Bool.eq_false_iff]
    intro hmem
    rcases (nodeMem_add_node g a t "nonstandard").mp hmem with h | h
    · rw [hg.1] at h
      cases h
    · exact ha h.symm
  · rw [add_node_edges]
    exact hg.2

theorem noNonstandard_add_edge {g : Graph} {u v : String} {d : EdgeData}
    (hg : NoNonstandard g) (hu : u ≠ "nonstandard") (hv : v ≠ "nonstandard") :
    NoNonstandard (add_edge g u v d) := by
  constructor
  · unfold add_edge
    simp only
    rw [Bool.eq_false_iff]
    intro hmem
    have hmem' : nodeMem (ensureNode (ensureNode g u) v) "nonstandard" = true := hmem
    rcases (nodeMem_ensureNode _ v "nonstandard").mp hmem' with h | h
    · rcases (nodeMem_ensureNode _ u "nonstandard").mp h with h2 | h2
      · rw [hg.1] at h2
        cases h2
      · exact hu h2.symm
    · exact hv h.symm
  · rw [add_edge_edges]
    intro e he
    rcases mem_updateEdge he with h | h
    · exact hg.2 e h
    · subst h
      exact ⟨hu, hv⟩

/-- C8 counterexample: the Blockstream placeholder `'N/A (script)'` — the
repository's own sentinel for an output with no resolvable address — is not
filtered by `analyze_bitcoin_transaction`, and ends up both as a graph node
and as an edge endpoint. -/
theorem sentinel_in_graph_counterexample :
    nodeMem (analyze_bitcoin_transaction graph0 "h" txDataNA) "N/A (script)" = true ∧
    (analyze_bitcoin_transaction graph0 "h" txDataNA).edges.map Prod.fst =
      [("A", "N/A (script)")] := by decide

/-- C8 amended: only a missing/empty recipient and the Blockchair sentinel
`"nonstandard"` are excluded from the graph: `"nonstandard"` never appears
as a node or an edge endpoint for every transaction processed.  (The
Blockstream placeholders such as `'N/A (script)'` are *not* excluded and do
enter the graph — see the counterexample.) -/
theorem nonstandard_never_in_graph (g : Graph) (tx_hash : String) (tx : TxData)
    (hg : NoNonstandard g) :
    NoNonstandard (analyze_bitcoin_transaction g tx_hash tx) := by
  unfold analyze_bitcoin_transaction
  apply foldl_preserve _ _ _ (fun g' inp _ hg' => ?_) _
    (foldl_preserve _ _ _ (fun g' out _ hg' => ?_) _
      (foldl_preserve _ _ _ (fun g' inp _ hg' => ?_) _ hg))
  · rcases hr : okRecip inp.recipient with - | i
    · exact hg'
    · simp only [hr]
      apply foldl_preserve _ _ _ (fun g'' out _ hg'' => ?_) _ hg'
      rcases hro : okRecip out.recipient with - | o
      · exact hg''
      · simp only [hro]
        exact noNonstandard_add_edge hg'' (okRecip_ne_nonstandard hr)
          (okRecip_ne_nonstandard hro)
  · rcases hr : okRecip out.recipient with - | o
    · exact hg'
    · simp only [hr]
      exact noNonstandard_add_node hg' (okRecip_ne_nonstandard hr)
  · rcases hr : okRecip inp.recipient with - | i
    · exact hg'
    · simp only [hr]
      exact noNonstandard_add_node hg' (okRecip_ne_nonstandard hr)

/-- C8 amended, witness on a concrete transaction. -/
theorem nonstandard_never_in_graph_witness :
    NoNonstandard graph0 ∧
    NoNonstandard (analyze_bitcoin_transaction graph0 "h" txDataAB) :=
  ⟨by decide, nonstandard_never_in_graph graph0 "h" txDataAB (by decide)⟩

theorem updateEdge_keys (es : List ((String × String) × EdgeData)) (k : String × String)
    (d : EdgeData) :
    (updateEdge es k d).map Prod.fst =
      (if k ∈ es.map Prod.fst then es.map Prod.fst else es.map Prod.fst ++ [k]) := by
  induction es with
  | nil => simp [updateEdge]
  | cons p rest ih =>
    obtain ⟨k', d'⟩ := p
    by_cases hk : k' = k
    · subst hk
      rw [updateEdge, if_pos rfl]
      simp
    · rw [updateEdge, if_neg hk]
      simp only [List.map_cons, ih]
      by_cases hmem : k ∈ rest.map Prod.fst
      · rw [if_pos hmem, if_pos (by simp [hmem])]
      · rw [if_neg hmem, if_neg (by simp [hmem, Ne.symm hk])]
        simp

/-- No two edges share a (from, to) key: the graph is simple. -/
def KeysNodup (g : Graph) : Prop := (g.edges.map Prod.fst).Nodup

instance : DecidablePred KeysNodup := fun g => by
  unfold KeysNodup
  infer_instance

theorem keysNodup_add_edge {g : Graph} (hg : KeysNodup g) (u v : String) (d : EdgeData) :
    KeysNodup (add_edge g u v d) := by
  unfold KeysNodup
  rw [add_edge_edges, updateEdge_keys]
  split
  · exact hg
  · rename_i hmem
    rw [List.nodup_append]
    refine ⟨hg, List.nodup_singleton _, ?_⟩
    intro a ha hb
    simp only [List.mem_singleton] at hb
    subst hb
    exact hmem ha

theorem keysNodup_add_node {g : Graph} (hg : KeysNodup g) (a t : String) :
    KeysNodup (add_node g a t) := by
  unfold KeysNodup
  rw [add_node_edges]
  exact hg

theorem findEdge_updateEdge_self (es : List ((String × String) × EdgeData))
    (k : String × String) (d : EdgeData) : findEdge (updateEdge es k d) k = some d := by
  induction es with
  | nil => simp [updateEdge, findEdge, List.find?]
  | cons p rest ih =>
    obtain ⟨k', d'⟩ := p
    by_cases hk : k' = k
    · rw [updateEdge, if_pos hk]
      simp [findEdge, List.find?]
    · rw [updateEdge, if_neg hk]
      simpa [findEdge, List.find?, hk] using ih

theorem findEdge_updateEdge_other (es : List ((String × String) × EdgeData))
    (k k' : String × String) (d : EdgeData) (hne : k' ≠ k) :
    findEdge (updateEdge es k d) k' = findEdge es k' := by
  induction es with
  | nil => simp [updateEdge, findEdge, List.find?, Ne.symm hne]
  | cons p rest ih =>
    obtain ⟨k0, d0⟩ := p
    by_cases hk : k0 = k
    · subst hk
      rw [updateEdge, if_pos rfl]
      simp [findEdge, List.find?, hne, Ne.symm hne]
    · rw [updateEdge, if_neg hk]
      by_cases hk' : k0 = k'
      · subst hk'
        simp [findEdge, List.find?]
      · simpa [findEdge, List.find?, hk'] using ih

/-- The inner output loop of the edge-building pass. -/
def innerEdges (tx_hash : String) (outs : List TOut) (i : String) (g : Graph) : Graph :=
  outs.foldl (fun g out =>
    match okRecip out.recipient with
    | some o => add_edge g i o ⟨tx_hash, out.value.getD 0⟩
    | none => g) g

theorem analyze_eq_outer (g : Graph) (tx_hash : String) (tx : TxData) :
    analyze_bitcoin_transaction g tx_hash tx =
      tx.inputs.foldl (fun g inp =>
        match okRecip inp.recipient with
        | some i => innerEdges tx_hash tx.outputs i g
        | none => g)
        ((tx.outputs.foldl (fun g out =>
          match okRecip out.recipient with
          | some r => add_node g r "output"
          | none => g)
          (tx.inputs.foldl (fun g inp =>
            match okRecip inp.recipient with
            | some r => add_node g r "input"
            | none => g) g))) := rfl

theorem innerEdges_preserves_no_oa (tx_hash : String) (outs : List TOut) (i : String)
    (oa : String) (hno : ∀ o' ∈ outs, okRecip o'.recipient ≠ some oa) :
    ∀ g, findEdge (innerEdges tx_hash outs i g).edges (i, oa) = findEdge g.edges (i, oa) := by
  induction outs with
  | nil => exact fun g => rfl
  | cons out rest ih =>
    intro g
    rcases hro : okRecip out.recipient with - | o
    · rw [show innerEdges tx_hash (out :: rest) i g = innerEdges tx_hash rest i g by
        simp [innerEdges, hro]]
      exact ih (fun o' ho' => hno o' (by simp [ho'])) g
    · have hne : o ≠ oa := by
        intro hcon
        exact hno out (by simp) (hcon ▸ hro)
      rw [show innerEdges tx_hash (out :: rest) i g =
          innerEdges tx_hash rest i (add_edge g i o ⟨tx_hash, out.value.getD 0⟩) by
        simp [innerEdges, hro]]
      rw [ih (fun o' ho' => hno o' (by simp [ho'])) _, add_edge_edges]
      exact findEdge_updateEdge_other _ _ _ _ (by simp [hne.symm])

theorem innerEdges_preserves_other_i (tx_hash : String) (outs : List TOut) (i' : String)
    (k : String × String) (hk : k.1 ≠ i') :
    ∀ g, findEdge (innerEdges tx_hash outs i' g).edges k = findEdge g.edges k := by
  induction outs with
  | nil => exact fun g => rfl
  | cons out rest ih =>
    intro g
    rcases hro : okRecip out.recipient with - | o
    · rw [show innerEdges tx_hash (out :: rest) i' g = innerEdges tx_hash rest i' g by
        simp [innerEdges, hro]]
      exact ih g
    · rw [show innerEdges tx_hash (out :: rest) i' g =
          innerEdges tx_hash rest i' (add_edge g i' o ⟨tx_hash, out.value.getD 0⟩) by
        simp [innerEdges, hro]]
      rw [ih _, add_edge_edges]
      exact findEdge_updateEdge_other _ _ _ _ (by
        intro hcon
        exact hk (by rw [hcon]))

theorem innerEdges_sets (tx_hash : String) (outs : List TOut) (i oa : String) :
    ∀ g, (∃ o' ∈ outs, okRecip o'.recipient = some oa) →
    ∃ d, findEdge (innerEdges tx_hash outs i g).edges (i, oa) = some d ∧
      d.tx_hash = tx_hash ∧
      ∃ o' ∈ outs, okRecip o'.recipient = some oa ∧ d.value = o'.value.getD 0 := by
  induction outs with
  | nil =>
    rintro g ⟨o', ho', -⟩
    cases ho'
  | cons out rest ih =>
    rintro g ⟨o', ho', hoa⟩
    rcases hro : okRecip out.recipient with - | o
    · have ho'r : o' ∈ rest := by
        rcases List.mem_cons.mp ho' with h | h
        · subst h
          rw [hro] at hoa
          cases hoa
        · exact h
      rw [show innerEdges tx_hash (out :: rest) i g = innerEdges tx_hash rest i g by
        simp [innerEdges, hro]]
      obtain ⟨d, h1, h2, o'', h3, h4, h5⟩ := ih g ⟨o', ho'r, hoa⟩
      exact ⟨d, h1, h2, o'', by simp [h3], h4, h5⟩
    · rw [show innerEdges tx_hash (out :: rest) i g =
          innerEdges tx_hash rest i (add_edge g i o ⟨tx_hash, out.value.getD 0⟩) by
        simp [innerEdges, hro]]
      by_cases hrest : ∃ o'' ∈ rest, okRecip o''.recipient = some oa
      · obtain ⟨d, h1, h2, o'', h3, h4, h5⟩ := ih _ hrest
        exact ⟨d, h1, h2, o'', by simp [h3], h4, h5⟩
      · have ho'eq : o' = out := by
          rcases List.mem_cons.mp ho' with h | h
          · exact h
          · exact absurd ⟨o', h, hoa⟩ hrest
        subst ho'eq
        rw [hro] at hoa
        injection hoa with hoeq
        subst hoeq
        rw [innerEdges_preserves_no_oa tx_hash rest i o
          (fun o'' ho'' hcon => hrest ⟨o'', ho'', hcon⟩) _, add_edge_edges,
          findEdge_updateEdge_self]
        exact ⟨_, rfl, rfl, o', by simp, hro, rfl⟩

/-- The outer input loop of the edge-building pass. -/
def outerEdges (tx_hash : String) (outs : List TOut) (ins : List TIn) (g : Graph) : Graph :=
  ins.foldl (fun g inp =>
    match okRecip inp.recipient with
    | some i => innerEdges tx_hash outs i g
    | none => g) g

theorem outerEdges_preserves (tx_hash : String) (outs : List TOut) (ins : List TIn)
    (ia oa : String) (hno : ∀ inp ∈ ins, okRecip inp.recipient ≠ some ia) :
    ∀ g, findEdge (outerEdges tx_hash outs ins g).edges (ia, oa) =
      findEdge g.edges (ia, oa) := by
  induction ins with
  | nil => exact fun g => rfl
  | cons inp rest ih =>
    intro g
    rcases hri : okRecip inp.recipient with - | i
    · rw [show outerEdges tx_hash outs (inp :: rest) g = outerEdges tx_hash outs rest g by
        simp [outerEdges, hri]]
      exact ih (fun inp' h' => hno inp' (by simp [h'])) g
    · have hne : i ≠ ia := by
        intro hcon
        exact hno inp (by simp) (hcon ▸ hri)
      rw [show outerEdges tx_hash outs (inp :: rest) g =
          outerEdges tx_hash outs rest (innerEdges tx_hash outs i g) by
        simp [outerEdges, hri]]
      rw [ih (fun inp' h' => hno inp' (by simp [h'])) _]
      exact innerEdges_preserves_other_i tx_hash outs i (ia, oa) hne.symm g

theorem outerEdges_sets (tx_hash : String) (outs : List TOut) (ins : List TIn)
    (ia oa : String) (hin : ∃ inp ∈ ins, okRecip inp.recipient = some ia)
    (hout : ∃ o' ∈ outs, okRecip o'.recipient = some oa) :
    ∀ g, ∃ d, findEdge (outerEdges tx_hash outs ins g).edges (ia, oa) = some d ∧
      d.tx_hash = tx_hash ∧
      ∃ o' ∈ outs, okRecip o'.recipient = some oa ∧ d.value = o'.value.getD 0 := by
  induction ins with
  | nil =>
    obtain ⟨inp, hmem, -⟩ := hin
    cases hmem
  | cons inp rest ih =>
    intro g
    obtain ⟨inp0, hmem0, hia0⟩ := hin
    rcases hri : okRecip inp.recipient with - | i
    · have hrest : inp0 ∈ rest := by
        rcases List.mem_cons.mp hmem0 with h | h
        · subst h
          rw [hri] at hia0
          cases hia0
        · exact h
      rw [show outerEdges tx_hash outs (inp :: rest) g = outerEdges tx_hash outs rest g by
        simp [outerEdges, hri]]
      exact ih ⟨inp0, hrest, hia0⟩ g
    · rw [show outerEdges tx_hash outs (inp :: rest) g =
          outerEdges tx_hash outs rest (innerEdges tx_hash outs i g) by
        simp [outerEdges, hri]]
      by_cases hrest : ∃ inp' ∈ rest, okRecip inp'.recipient = some ia
      · exact ih hrest _
      · have heq : inp0 = inp := by
          rcases List.mem_cons.mp hmem0 with h | h
          · exact h
          · exact absurd ⟨inp0, h, hia0⟩ hrest
        subst heq
        rw [hri] at hia0
        injection hia0 with hieq
        subst hieq
        rw [outerEdges_preserves tx_hash outs rest i oa
          (fun inp' h' hcon => hrest ⟨inp', h', hcon⟩) _]
        exact innerEdges_sets tx_hash outs i oa g hout

/-- C9 counterexample: the graph is an `nx.DiGraph`, not a multigraph.
Adding the same transaction twice leaves the graph exactly as after one add
(1 edge, not 2 parallel edges), and a distinct transaction over the same
(A, B) pair overwrites the edge's `tx_hash`/`value` attributes in place
rather than adding a parallel edge. -/
theorem parallel_edges_counterexample :
    analyze_bitcoin_transaction (analyze_bitcoin_transaction graph0 "h" txDataAB) "h" txDataAB =
      analyze_bitcoin_transaction graph0 "h" txDataAB ∧
    (analyze_bitcoin_transaction (analyze_bitcoin_transaction graph0 "h" txDataAB) "h"
      txDataAB).edges.length = 1 ∧
    (analyze_bitcoin_transaction (analyze_bitcoin_transaction graph0 "h1" txDataAB) "h2"
      txDataAB).edges = [(("A", "B"), ⟨"h2", 5⟩)] := by decide

/-- C9 amended: `analyze_bitcoin_transaction` maintains one directed edge
per (input-address, output-address) pair, carrying the transaction hash and
the value of the (last) output bearing that address; the graph is a simple
digraph — edge keys stay duplicate-free, so re-adding a transaction or
adding a distinct transaction over the same pair overwrites the edge's
attributes instead of producing parallel edges. -/
theorem add_transaction_simple_digraph (g : Graph) (tx_hash : String) (tx : TxData)
    (hg : KeysNodup g) :
    KeysNodup (analyze_bitcoin_transaction g tx_hash tx) ∧
    (∀ inp ∈ tx.inputs, ∀ out ∈ tx.outputs, ∀ ia oa,
      okRecip inp.recipient = some ia → okRecip out.recipient = some oa →
      ∃ d, findEdge (analyze_bitcoin_transaction g tx_hash tx).edges (ia, oa) = some d ∧
        d.tx_hash = tx_hash ∧
        ∃ o' ∈ tx.outputs, okRecip o'.recipient = some oa ∧ d.value = o'.value.getD 0) := by
  constructor
  · unfold analyze_bitcoin_transaction
    apply foldl_preserve _ _ _ (fun g' inp _ hg' => ?_) _
      (foldl_preserve _ _ _ (fun g' out _ hg' => ?_) _
        (foldl_preserve _ _ _ (fun g' inp _ hg' => ?_) _ hg))
    · rcases hr : okRecip inp.recipient with - | i
      · exact hg'
      · simp only [hr]
        apply foldl_preserve _ _ _ (fun g'' out _ hg'' => ?_) _ hg'
        rcases hro : okRecip out.recipient with - | o
        · exact hg''
        · simp only [hro]
          exact keysNodup_add_edge hg'' _ _ _
    · rcases hr : okRecip out.recipient with - | o
      · exact hg'
      · simp only [hr]
        exact keysNodup_add_node hg' _ _
    · rcases hr : okRecip inp.recipient with - | i
      · exact hg'
      · simp only [hr]
        exact keysNodup_add_node hg' _ _
  · intro inp hinp out hout ia oa hia hoa
    have heq : analyze_bitcoin_transaction g tx_hash tx =
        outerEdges tx_hash tx.outputs tx.inputs
          ((tx.outputs.foldl (fun g out =>
            match okRecip out.recipient with
            | some r => add_node g r "output"
            | none => g)
            (tx.inputs.foldl (fun g inp =>
              match okRecip inp.recipient with
              | some r => add_node g r "input"
              | none => g) g))) := rfl
    rw [heq]
    exact outerEdges_sets tx_hash tx.outputs tx.inputs ia oa ⟨inp, hinp, hia⟩
      ⟨out, hout, hoa⟩ _

/-- C9 amended, witness on a concrete transaction and the empty graph. -/
theorem add_transaction_simple_digraph_witness :
    KeysNodup graph0 ∧
    (KeysNodup (analyze_bitcoin_transaction graph0 "h" txDataAB) ∧
    (∀ inp ∈ txDataAB.inputs, ∀ out ∈ txDataAB.outputs, ∀ ia oa,
      okRecip inp.recipient = some ia → okRecip out.recipient = some oa →
      ∃ d, findEdge (analyze_bitcoin_transaction graph0 "h" txDataAB).edges (ia, oa) = some d ∧
        d.tx_hash = "h" ∧
        ∃ o' ∈ txDataAB.outputs, okRecip o'.recipient = some oa ∧ d.value = o'.value.getD 0)) :=
  ⟨by decide, add_transaction_simple_digraph graph0 "h" txDataAB (by decide)⟩

/-! ## Connectivity: soundness and completeness of the component computation -/

theorem adjb_iff (g : Graph) (x y : String) :
    adjb g x y = true ↔
      ∃ e ∈ g.edges, (e.1.1 = x ∧ e.1.2 = y) ∨ (e.1.1 = y ∧ e.1.2 = x) := by
  simp [adjb, List.any_eq_true]

theorem adjb_symm (g : Graph) (x y : String) : adjb g x y = adjb g y x := by
  rw [Bool.eq_iff_iff, adjb_iff, adjb_iff]
  constructor <;> rintro ⟨e, he, h⟩ <;> exact ⟨e, he, h.symm⟩

theorem reach_single {g : Graph} {a b : String} (h : adjb g a b = true) : Reach g a b :=
  (Reach.refl a).tail h

theorem reach_trans {g : Graph} {a b c : String} (h1 : Reach g a b) (h2 : Reach g b c) :
    Reach g a c := by
  induction h2 with
  | refl => exact h1
  | tail _ h ih => exact ih.tail h

theorem reach_symm {g : Graph} {a b : String} (h : Reach g a b) : Reach g b a := by
  induction h with
  | refl => exact Reach.refl _
  | tail _ hadj ih => exact reach_trans (reach_single (by rw [adjb_symm]; exact hadj)) ih

theorem mem_endpoints_foldr :
    ∀ (es : List ((String × String) × EdgeData)) (e : (String × String) × EdgeData),
      e ∈ es →
      e.1.1 ∈ es.foldr (fun e s => insert e.1.1 (insert e.1.2 s)) (∅ : Finset String) ∧
      e.1.2 ∈ es.foldr (fun e s => insert e.1.1 (insert e.1.2 s)) (∅ : Finset String)
  | [], e, he => absurd he (List.not_mem_nil e)
  | f :: rest, e, he => by
    rcases List.mem_cons.mp he with h | h
    · subst h
      exact ⟨Finset.mem_insert_self _ _,
        Finset.mem_insert_of_mem (Finset.mem_insert_self _ _)⟩
    · obtain ⟨h1, h2⟩ := mem_endpoints_foldr rest e h
      exact ⟨Finset.mem_insert_of_mem (Finset.mem_insert_of_mem h1),
        Finset.mem_insert_of_mem (Finset.mem_insert_of_mem h2)⟩

theorem adjb_endpoints {g : Graph} {x y : String} (h : adjb g x y = true) :
    x ∈ edgeEndpoints g ∧ y ∈ edgeEndpoints g := by
  rcases (adjb_iff g x y).mp h with ⟨e, he, hcase⟩
  have hm := mem_endpoints_foldr g.edges e he
  rcases hcase with ⟨h1, h2⟩ | ⟨h1, h2⟩
  · exact ⟨by rw [← h1]; exact hm.1, by rw [← h2]; exact hm.2⟩
  · exact ⟨by rw [← h2]; exact hm.2, by rw [← h1]; exact hm.1⟩

theorem mem_nbrs {g : Graph} {x y : String} :
    y ∈ nbrs g x ↔ y ∈ edgeEndpoints g ∧ adjb g x y = true := by
  unfold nbrs
  rw [Finset.mem_filter]

theorem subset_compStep (g : Graph) (s : Finset String) : s ⊆ compStep g s :=
  Finset.subset_union_left

theorem compStep_subset {g : Graph} {s U : Finset String} (hU : s ⊆ U)
    (hE : edgeEndpoints g ⊆ U) : compStep g s ⊆ U := by
  unfold compStep
  apply Finset.union_subset hU
  apply Finset.biUnion_subset.mpr
  intro x _
  exact (Finset.filter_subset _ _).trans hE

theorem subset_iterate (g : Graph) (s : Finset String) :
    ∀ n, s ⊆ (compStep g)^[n] s := by
  intro n
  induction n with
  | zero => exact Finset.Subset.refl s
  | succ n ih =>
    rw [Function.iterate_succ_apply']
    exact ih.trans (subset_compStep g _)

theorem iterate_subset_universe (g : Graph) (a : String) :
    ∀ n, (compStep g)^[n] {a} ⊆ insert a (edgeEndpoints g) := by
  intro n
  induction n with
  | zero => simp
  | succ n ih =>
    rw [Function.iterate_succ_apply']
    exact compStep_subset ih (Finset.subset_insert _ _)

theorem compStep_fix_or_card (g : Graph) (a : String) :
    ∀ k, compStep g ((compStep g)^[k] {a}) = (compStep g)^[k] {a} ∨
      k + 1 ≤ ((compStep g)^[k] {a}).card := by
  intro k
  induction k with
  | zero =>
    right
    simp
  | succ k ih =>
    rcases ih with hfix | hcard
    · left
      have h1 : (compStep g)^[k + 1] {a} = (compStep g)^[k] {a} := by
        rw [Function.iterate_succ_apply']
        exact hfix
      rw [h1]
      exact hfix
    · by_cases heq : compStep g ((compStep g)^[k] {a}) = (compStep g)^[k] {a}
      · left
        have h1 : (compStep g)^[k + 1] {a} = (compStep g)^[k] {a} := by
          rw [Function.iterate_succ_apply']
          exact heq
        rw [h1]
        exact heq
      · right
        have hsub : (compStep g)^[k] {a} ⊂ compStep g ((compStep g)^[k] {a}) :=
          HasSubset.Subset.ssubset_of_ne (subset_compStep g _) (Ne.symm heq)
        have hlt := Finset.card_lt_card hsub
        rw [Function.iterate_succ_apply']
        omega

theorem ncc_fixed (g : Graph) (a : String) :
    compStep g (node_connected_component g a) = node_connected_component g a := by
  unfold node_connected_component
  rcases compStep_fix_or_card g a ((edgeEndpoints g).card + 1) with h | h
  · exact h
  · exfalso
    have hsub := iterate_subset_universe g a ((edgeEndpoints g).card + 1)
    have hle := Finset.card_le_card hsub
    have hins := Finset.card_insert_le a (edgeEndpoints g)
    omega

theorem mem_ncc_self (g : Graph) (a : String) : a ∈ node_connected_component g a :=
  subset_iterate g {a} _ (Finset.mem_singleton_self a)

theorem ncc_sound {g : Graph} {a b : String} (h : b ∈ node_connected_component g a) :
    Reach g a b := by
  suffices hgen : ∀ n x, x ∈ (compStep g)^[n] ({a} : Finset String) → Reach g a x from
    hgen _ b h
  intro n
  induction n with
  | zero =>
    intro x hx
    rw [Function.iterate_zero_apply, Finset.mem_singleton] at hx
    subst hx
    exact Reach.refl _
  | succ n ih =>
    intro x hx
    rw [Function.iterate_succ_apply'] at hx
    rcases Finset.mem_union.mp hx with hx | hx
    · exact ih x hx
    · obtain ⟨y, hy, hxy⟩ := Finset.mem_biUnion.mp hx
      exact (ih y hy).tail (mem_nbrs.mp hxy).2

theorem ncc_complete {g : Graph} {a b : String} (h : Reach g a b) :
    b ∈ node_connected_component g a := by
  induction h with
  | refl => exact mem_ncc_self g a
  | tail _ hadj ih =>
    rename_i b' c _
    have hc : c ∈ nbrs g b' := mem_nbrs.mpr ⟨(adjb_endpoints hadj).2, hadj⟩
    have hmem : c ∈ compStep g (node_connected_component g a) :=
      Finset.mem_union_right _ (Finset.mem_biUnion.mpr ⟨b', ih, hc⟩)
    rwa [ncc_fixed] at hmem

theorem ncc_subset_endpoints (g : Graph) (a : String) :
    node_connected_component g a ⊆ insert a (edgeEndpoints g) :=
  iterate_subset_universe g a _

theorem mem_componentList {g : Graph} {a x : String} :
    x ∈ componentList g a ↔ x ∈ node_connected_component g a := by
  unfold componentList
  exact Finset.mem_sort _

theorem componentList_nodup (g : Graph) (a : String) : (componentList g a).Nodup :=
  Finset.sort_nodup _ _

/-! ## Registry lemmas -/

theorem lookupCount_some_mem {l : List (String × Nat)} {x : String} {i : Nat}
    (h : lookupCount l x = some i) : (x, i) ∈ l := by
  unfold lookupCount at h
  rcases hf : l.find? (fun p => decide (p.1 = x)) with - | p
  · rw [hf] at h
    cases h
  · rw [hf] at h
    injection h with h2
    have hmem := List.mem_of_find?_eq_some hf
    have hpred := List.find?_some hf
    have hx : p.1 = x := of_decide_eq_true hpred
    have hp : p = (x, i) := by
      obtain ⟨p1, p2⟩ := p
      simp only at hx h2
      rw [hx, h2]
    rwa [hp] at hmem

theorem lookupCount_append_some {l1 l2 : List (String × Nat)} {x : String} {i : Nat}
    (h : lookupCount l1 x = some i) : lookupCount (l1 ++ l2) x = some i := by
  induction l1 with
  | nil => cases h
  | cons p rest ih =>
    unfold lookupCount at h ⊢
    rw [List.cons_append, List.find?]
    rw [List.find?] at h
    by_cases hp : p.1 = x
    · simpa [hp] using h
    · simp only [hp, decide_False] at h ⊢
      exact ih h

theorem lookupCount_append_none {l1 l2 : List (String × Nat)} {x : String}
    (h : lookupCount l1 x = none) : lookupCount (l1 ++ l2) x = lookupCount l2 x := by
  induction l1 with
  | nil => rfl
  | cons p rest ih =>
    unfold lookupCount at h ⊢
    rw [List.cons_append, List.find?]
    rw [List.find?] at h
    by_cases hp : p.1 = x
    · simp [hp] at h
    · simp only [hp, decide_False] at h ⊢
      exact ih h

theorem lookupCount_map_const {comp : List String} {cid : Nat} {x : String} :
    lookupCount (comp.map (fun y => (y, cid))) x =
      if x ∈ comp then some cid else none := by
  induction comp with
  | nil => rfl
  | cons c rest ih =>
    unfold lookupCount at ih ⊢
    rw [List.map_cons, List.find?]
    by_cases hc : c = x
    · subst hc
      simp
    · simp only [hc, decide_False]
      rw [ih]
      by_cases hmem : x ∈ rest
      · rw [if_pos hmem, if_pos (by simp [hmem])]
      · rw [if_neg hmem, if_neg (by simp [hmem, Ne.symm hc])]

/-- Every edge endpoint is a node of the graph (true of every graph the
analyzer builds, since `add_edge` registers its endpoints as nodes). -/
def EdgesClosed (g : Graph) : Prop :=
  ∀ e ∈ g.edges, nodeMem g e.1.1 = true ∧ nodeMem g e.1.2 = true

instance : DecidablePred EdgesClosed := fun g => by
  unfold EdgesClosed
  infer_instance

theorem reach_eq_of_not_node {g : Graph} (hcl : EdgesClosed g) {x y : String}
    (hx : nodeMem g x = false) (h : Reach g x y) : y = x := by
  induction h with
  | refl => rfl
  | tail _ hadj ih =>
    subst ih
    rcases (adjb_iff _ _ _).mp hadj with ⟨e, he, hcase⟩
    rcases hcase with ⟨h1, -⟩ | ⟨-, h2⟩
    · have hn := (hcl e he).1
      rw [h1, hx] at hn
      cases hn
    · have hn := (hcl e he).2
      rw [h2, hx] at hn
      cases hn

theorem reach_eq_of_no_edges {g : Graph} (hE : g.edges = []) {x y : String}
    (h : Reach g x y) : y = x := by
  induction h with
  | refl => rfl
  | tail _ hadj ih =>
    rw [adjb, hE] at hadj
    cases hadj

theorem lookupCount_singleton {a x : String} {cid : Nat} :
    lookupCount [(a, cid)] x = if x = a then some cid else none := by
  unfold lookupCount
  by_cases hx : x = a
  · subst hx
    simp [List.find?]
  · simp [List.find?, Ne.symm hx, hx]

/-- The three registry invariants threaded through a `cluster_addresses`
pass started from counter `cid`: every stored id is below the counter,
equal ids only ever join connected addresses, and the assigned set is
closed under reachability. -/
def RegInv (g : Graph) (cl : List (String × Nat)) (cid : Nat) : Prop :=
  (∀ p ∈ cl, p.2 < cid) ∧
  (∀ x y i, lookupCount cl x = some i → lookupCount cl y = some i → Reach g x y) ∧
  (∀ x i, lookupCount cl x = some i → ∀ y, Reach g x y → (lookupCount cl y).isSome = true)

theorem cluster_step_preserves (g : Graph) (cl : List (String × Nat)) (cid : Nat)
    (a : String) {x : String} {i : Nat} (h : lookupCount cl x = some i) :
    lookupCount (cluster_step g (cl, cid) a).1 x = some i := by
  unfold cluster_step
  split_ifs
  · exact h
  · exact h
  · exact lookupCount_append_some h
  · exact lookupCount_append_some h

theorem cluster_step_assigns {g : Graph} {cl : List (String × Nat)} {cid : Nat}
    {a : String} (hinv : RegInv g cl cid) (_hcl : EdgesClosed g) :
    (lookupCount (cluster_step g (cl, cid) a).1 a).isSome = true := by
  unfold cluster_step
  split_ifs with h1 h2 h3
  · exact h1
  · -- a member of a's component is assigned, yet a is not: impossible
    exfalso
    rw [List.any_eq_true] at h3
    obtain ⟨c, hc, hcs⟩ := h3
    obtain ⟨j, hj⟩ := Option.isSome_iff_exists.mp hcs
    have hreach : Reach g a c := ncc_sound (mem_componentList.mp hc)
    have := hinv.2.2 c j hj a (reach_symm hreach)
    rw [this] at h1
    exact h1 rfl
  · -- fresh allocation of the whole component
    have hnone : lookupCount cl a = none :=
      Option.not_isSome_iff_eq_none.mp (by simpa using h1)
    rw [lookupCount_append_none hnone, lookupCount_map_const,
      if_pos (mem_componentList.mpr (mem_ncc_self g a))]
    rfl
  · have hnone : lookupCount cl a = none :=
      Option.not_isSome_iff_eq_none.mp (by simpa using h1)
    rw [lookupCount_append_none hnone, lookupCount_singleton, if_pos rfl]
    rfl

theorem cluster_step_inv {g : Graph} {cl : List (String × Nat)} {cid : Nat}
    {a : String} (hinv : RegInv g cl cid) (hcl : EdgesClosed g) :
    RegInv g (cluster_step g (cl, cid) a).1 (cluster_step g (cl, cid) a).2 := by
  unfold cluster_step
  split_ifs with h1 h2 h3
  · exact hinv
  · exact hinv
  · -- allocate: cl' = cl ++ component.map (·, cid), counter cid + 1
    have hnoneAll : ∀ c ∈ componentList g a, lookupCount cl c = none := by
      intro c hc
      by_contra hcon
      rw [List.any_eq_true] at h3
      exact h3 ⟨c, hc, by
        rcases hx : lookupCount cl c with - | j
        · exact absurd hx hcon
        · rfl⟩
    have hchar : ∀ x i, lookupCount (cl ++ (componentList g a).map (fun y => (y, cid))) x
        = some i → lookupCount cl x = some i ∨ (x ∈ componentList g a ∧ i = cid) := by
      intro x i hx
      rcases hold : lookupCount cl x with - | j
      · rw [lookupCount_append_none hold, lookupCount_map_const] at hx
        split_ifs at hx with hmem
        injection hx with hx2
        exact Or.inr ⟨hmem, hx2.symm⟩
      · rw [lookupCount_append_some hold] at hx
        exact Or.inl hx
    refine ⟨?_, ?_, ?_⟩
    · intro p hp
      rcases List.mem_append.mp hp with h | h
      · exact Nat.lt_succ_of_lt (hinv.1 p h)
      · obtain ⟨y, -, hy⟩ := List.mem_map.mp h
        rw [← hy]
        exact Nat.lt_succ_self cid
    · intro x y i hx hy
      rcases hchar x i hx with hx' | ⟨hx', hi⟩
      · rcases hchar y i hy with hy' | ⟨hy', hj⟩
        · exact hinv.2.1 x y i hx' hy'
        · exfalso
          have := hinv.1 _ (lookupCount_some_mem hx')
          omega
      · rcases hchar y i hy with hy' | ⟨hy', -⟩
        · exfalso
          have := hinv.1 _ (lookupCount_some_mem hy')
          omega
        · exact reach_trans (reach_symm (ncc_sound (mem_componentList.mp hx')))
            (ncc_sound (mem_componentList.mp hy'))
    · intro x i hx y hxy
      rcases hchar x i hx with hx' | ⟨hx', -⟩
      · have := hinv.2.2 x i hx' y hxy
        obtain ⟨j, hj⟩ := Option.isSome_iff_exists.mp this
        rw [lookupCount_append_some hj]
        rfl
      · have hay : Reach g a y :=
          reach_trans (ncc_sound (mem_componentList.mp hx')) hxy
        have hymem : y ∈ componentList g a := mem_componentList.mpr (ncc_complete hay)
        rw [lookupCount_append_none (hnoneAll y hymem), lookupCount_map_const,
          if_pos hymem]
        rfl
  · -- singleton for an address absent from the graph
    have hnone : lookupCount cl a = none :=
      Option.not_isSome_iff_eq_none.mp (by simpa using h1)
    have hnode : nodeMem g a = false := by simpa using h2
    have hchar : ∀ x i, lookupCount (cl ++ [(a, cid)]) x = some i →
        lookupCount cl x = some i ∨ (x = a ∧ i = cid) := by
      intro x i hx
      rcases hold : lookupCount cl x with - | j
      · rw [lookupCount_append_none hold, lookupCount_singleton] at hx
        split_ifs at hx with hxa
        injection hx with hx2
        exact Or.inr ⟨hxa, hx2.symm⟩
      · rw [lookupCount_append_some hold] at hx
        exact Or.inl hx
    refine ⟨?_, ?_, ?_⟩
    · intro p hp
      rcases List.mem_append.mp hp with h | h
      · exact Nat.lt_succ_of_lt (hinv.1 p h)
      · simp only [List.mem_singleton] at h
        rw [h]
        exact Nat.lt_succ_self cid
    · intro x y i hx hy
      rcases hchar x i hx with hx' | ⟨hx', hi⟩
      · rcases hchar y i hy with hy' | ⟨hy', hj⟩
        · exact hinv.2.1 x y i hx' hy'
        · exfalso
          have := hinv.1 _ (lookupCount_some_mem hx')
          omega
      · rcases hchar y i hy with hy' | ⟨hy', -⟩
        · exfalso
          have := hinv.1 _ (lookupCount_some_mem hy')
          omega
        · rw [hx', hy']
          exact Reach.refl a
    · intro x i hx y hxy
      rcases hchar x i hx with hx' | ⟨hx', -⟩
      · have := hinv.2.2 x i hx' y hxy
        obtain ⟨j, hj⟩ := Option.isSome_iff_exists.mp this
        rw [lookupCount_append_some hj]
        rfl
      · subst hx'
        have := reach_eq_of_not_node hcl hnode hxy
        subst this
        rw [lookupCount_append_none hnone, lookupCount_singleton, if_pos rfl]
        rfl

theorem foldl_cluster_preserves (g : Graph) :
    ∀ (addrs : List String) (cl : List (String × Nat)) (cid : Nat) {x : String} {i : Nat},
      lookupCount cl x = some i →
      lookupCount ((addrs.foldl (cluster_step g) (cl, cid)).1) x = some i
  | [], cl, cid, x, i, h => h
  | a :: addrs, cl, cid, x, i, h => by
    rw [List.foldl_cons]
    rcases hstep : cluster_step g (cl, cid) a with ⟨cl', cid'⟩
    have h' := cluster_step_preserves g cl cid a h
    rw [hstep] at h'
    exact foldl_cluster_preserves g addrs cl' cid' h'

theorem foldl_cluster_inv (g : Graph) (hcl : EdgesClosed g) :
    ∀ (addrs : List String) (cl : List (String × Nat)) (cid : Nat),
      RegInv g cl cid →
      RegInv g ((addrs.foldl (cluster_step g) (cl, cid)).1)
        ((addrs.foldl (cluster_step g) (cl, cid)).2)
  | [], cl, cid, hinv => hinv
  | a :: addrs, cl, cid, hinv => by
    rw [List.foldl_cons]
    rcases hstep : cluster_step g (cl, cid) a with ⟨cl', cid'⟩
    have h' := cluster_step_inv (a := a) hinv hcl
    rw [hstep] at h'
    exact foldl_cluster_inv g hcl addrs cl' cid' h'

theorem foldl_cluster_assigns (g : Graph) (hcl : EdgesClosed g) :
    ∀ (addrs : List String) (cl : List (String × Nat)) (cid : Nat) {a : String},
      a ∈ addrs → RegInv g cl cid →
      (lookupCount ((addrs.foldl (cluster_step g) (cl, cid)).1) a).isSome = true
  | [], cl, cid, a, ha, hinv => absurd ha (List.not_mem_nil a)
  | b :: addrs, cl, cid, a, ha, hinv => by
    rw [List.foldl_cons]
    rcases hstep : cluster_step g (cl, cid) b with ⟨cl', cid'⟩
    have hinv' := cluster_step_inv (a := b) hinv hcl
    rw [hstep] at hinv'
    rcases List.mem_cons.mp ha with heq | hmem
    · subst heq
      have hs := cluster_step_assigns (a := a) hinv hcl
      rw [hstep] at hs
      obtain ⟨i, hi⟩ := Option.isSome_iff_exists.mp hs
      rw [foldl_cluster_preserves g addrs cl' cid' hi]
      rfl
    · exact foldl_cluster_assigns g hcl addrs cl' cid' hmem hinv'

/-! ## Claim theorems: clustering -/

/-- C6 counterexample: the `cluster_id` counter is a local variable that
restarts at 0 on every `cluster_addresses` call, so two addresses that
never co-occur (here two isolated addresses assigned in two successive
calls on the empty graph) both receive cluster id 0 — not distinct ids. -/
theorem cluster_ids_reused_across_calls :
    lookupCount (cluster_addresses graph0 ["B"]
      (cluster_addresses graph0 ["A"] ⟨[]⟩)).clusters "A" = some 0 ∧
    lookupCount (cluster_addresses graph0 ["B"]
      (cluster_addresses graph0 ["A"] ⟨[]⟩)).clusters "B" = some 0 ∧
    "A" ≠ "B" ∧ ¬ Reach graph0 "A" "B" := by
  refine ⟨by decide, by decide, by decide, fun h => ?_⟩
  have hBA : "B" = "A" := reach_eq_of_no_edges rfl h
  exact absurd hBA (by decide)

/-- C6 amended: cluster ids start at 0 and increase monotonically only
*within* a single `assign` call — the counter restarts at 0 on every call,
so ids are reused across calls and never-co-occurring addresses assigned in
different calls can share an id.  Within one call starting from an empty
registry, two addresses in different connected components (in particular,
two that never co-occur in any transaction) do receive distinct ids. -/
theorem cluster_ids_distinct_within_call (g : Graph) (addrs : List String)
    (a b : String) (hcl : EdgesClosed g) (ha : a ∈ addrs) (hb : b ∈ addrs)
    (hnr : ¬ Reach g a b) :
    ∃ i j, lookupCount (cluster_addresses g addrs ⟨[]⟩).clusters a = some i ∧
      lookupCount (cluster_addresses g addrs ⟨[]⟩).clusters b = some j ∧ i ≠ j := by
  have hinv0 : RegInv g [] 0 :=
    ⟨fun p hp => absurd hp (List.not_mem_nil p),
     fun x y i hx _ => absurd hx (by simp [lookupCount]),
     fun x i hx => absurd hx (by simp [lookupCount])⟩
  have hsa := foldl_cluster_assigns g hcl addrs [] 0 ha hinv0
  have hsb := foldl_cluster_assigns g hcl addrs [] 0 hb hinv0
  have hinv := foldl_cluster_inv g hcl addrs [] 0 hinv0
  obtain ⟨i, hi⟩ := Option.isSome_iff_exists.mp hsa
  obtain ⟨j, hj⟩ := Option.isSome_iff_exists.mp hsb
  refine ⟨i, j, hi, hj, ?_⟩
  intro hij
  subst hij
  exact hnr (hinv.2.1 a b i hi hj)

/-- C6 amended, witness: two isolated addresses given in the same call on
the empty graph get distinct ids. -/
theorem cluster_ids_distinct_within_call_witness :
    EdgesClosed graph0 ∧ ("A" ∈ ["A", "B"]) ∧ ("B" ∈ ["A", "B"]) ∧
    (¬ Reach graph0 "A" "B") ∧
    (∃ i j, lookupCount (cluster_addresses graph0 ["A", "B"] ⟨[]⟩).clusters "A" = some i ∧
      lookupCount (cluster_addresses graph0 ["A", "B"] ⟨[]⟩).clusters "B" = some j ∧
      i ≠ j) := by
  have hnr : ¬ Reach graph0 "A" "B" := fun h =>
    absurd (reach_eq_of_no_edges rfl h) (by decide)
  exact ⟨by decide, by decide, by decide, hnr,
    cluster_ids_distinct_within_call graph0 ["A", "B"] "A" "B" (by decide)
      (by decide) (by decide) hnr⟩

/-- C7: once an address holds a cluster id, no later `assign` call — over
any sequence of graph states — changes it (first conjunct); and an
unassigned in-graph address whose component contains an already-assigned
member is skipped: the pass allocates no new id and leaves the registry and
counter unchanged (second conjunct). -/
theorem cluster_id_stable (calls : List (Graph × List String)) (reg : Registry)
    (a : String) (i : Nat) (g : Graph) (cl : List (String × Nat)) (cid : Nat)
    (x : String) :
    (lookupCount reg.clusters a = some i →
      lookupCount (run_cluster_calls calls reg).clusters a = some i) ∧
    (lookupCount cl x = none → nodeMem g x = true →
      (∃ c ∈ componentList g x, (lookupCount cl c).isSome = true) →
      cluster_step g (cl, cid) x = (cl, cid)) := by
  constructor
  · intro h
    induction calls generalizing reg with
    | nil => exact h
    | cons c rest ih =>
      exact ih (cluster_addresses c.1 c.2 reg)
        (foldl_cluster_preserves c.1 c.2 reg.clusters 0 h)
  · intro hnone hnode hex
    unfold cluster_step
    rw [if_neg (by simp [hnone]), if_pos hnode,
      if_pos (List.any_eq_true.mpr (by
        obtain ⟨c, hc, hcs⟩ := hex
        exact ⟨c, hc, hcs⟩))]

/-- C7, witness: a pre-assigned address survives a later call untouched,
and a component with an assigned member is skipped. -/
theorem cluster_id_stable_witness :
    (lookupCount (⟨[("A", 5)]⟩ : Registry).clusters "A" = some 5 →
      lookupCount (run_cluster_calls [(graph0, ["B"])] ⟨[("A", 5)]⟩).clusters "A" = some 5) ∧
    (lookupCount [("B", 0)] "A" = none →
      nodeMem (analyze_bitcoin_transaction graph0 "h" txDataAB) "A" = true →
      (∃ c ∈ componentList (analyze_bitcoin_transaction graph0 "h" txDataAB) "A",
        (lookupCount [("B", 0)] c).isSome = true) →
      cluster_step (analyze_bitcoin_transaction graph0 "h" txDataAB) ([("B", 0)], 1) "A" =
        ([("B", 0)], 1)) :=
  cluster_id_stable [(graph0, ["B"])] ⟨[("A", 5)]⟩ "A" 5
    (analyze_bitcoin_transaction graph0 "h" txDataAB) [("B", 0)] 1 "A"
